import Mathlib

/-!
A shallow embedding of the simulation core of the geared2 repository
(src/game/Storage.ts, Deposit.ts, Link.ts, Module.ts, World.ts, GameDefs.ts),
together with theorems settling the specification claims.

JavaScript numbers are modelled as rationals; every arithmetic operation that
occurs in the claims is exact on binary64 doubles at the claimed inputs, so ℚ
is a faithful model.  A JavaScript object of type Record<string, number> is
modelled as an insertion-ordered association list with unique keys
(assignment replaces the first matching entry, `delete` removes it).
-/

/-- ResourceAmount: the Record<string, number> maps used for storage contents,
storage capacities and slot buffers. -/
abbrev ResourceAmount := List (String × ℚ)

namespace RA

/-- Reads `m[r] || 0`: the value stored at key `r`, or 0 when absent. -/
def get (m : ResourceAmount) (r : String) : ℚ :=
  match m.find? (fun p => p.1 == r) with
  | some p => p.2
  | none => 0

/-- Whether the key `r` is present in the object. -/
def hasKey (m : ResourceAmount) (r : String) : Bool :=
  m.any (fun p => p.1 == r)

/-- Writes `m[r] = v`: replaces the first entry with key `r`, or appends. -/
def set (m : ResourceAmount) (r : String) (v : ℚ) : ResourceAmount :=
  match m with
  | [] => [(r, v)]
  | (a, b) :: t => if a == r then (r, v) :: t else (a, b) :: set t r v

/-- Models `delete m[r]`: removes the first entry with key `r`. -/
def erase (m : ResourceAmount) (r : String) : ResourceAmount :=
  match m with
  | [] => []
  | (a, b) :: t => if a == r then t else (a, b) :: erase t r

/-- Sum of all values stored under key `r` (on unique-key objects this is the
stored value). -/
def total (m : ResourceAmount) (r : String) : ℚ :=
  (m.filter (fun p => p.1 == r)).foldr (fun p acc => p.2 + acc) 0

/-- All values present in the map are strictly positive: the "no key mapped to
a value ≤ 0" invariant of the spec. -/
def AllPos (m : ResourceAmount) : Prop :=
  ∀ p ∈ m, 0 < p.2

/-- All values present in the map are nonnegative. -/
def AllNonneg (m : ResourceAmount) : Prop :=
  ∀ p ∈ m, 0 ≤ p.2

instance (m : ResourceAmount) : Decidable (AllPos m) := by
  unfold AllPos; infer_instance

instance (m : ResourceAmount) : Decidable (AllNonneg m) := by
  unfold AllNonneg; infer_instance

@[simp]
theorem get_nil (r : String) : get [] r = 0 := rfl

@[simp]
theorem get_cons (a : String) (b : ℚ) (t : ResourceAmount) (r : String) :
    get ((a, b) :: t) r = if a == r then b else get t r := by
  simp only [get, List.find?]
  by_cases h : a == r
  · simp [h]
  · simp [h]

@[simp]
theorem set_nil (r : String) (v : ℚ) : set [] r v = [(r, v)] := rfl

@[simp]
theorem set_cons (a : String) (b : ℚ) (t : ResourceAmount) (r : String) (v : ℚ) :
    set ((a, b) :: t) r v = if a == r then (r, v) :: t else (a, b) :: set t r v := rfl

@[simp]
theorem erase_nil (r : String) : erase [] r = [] := rfl

@[simp]
theorem erase_cons (a : String) (b : ℚ) (t : ResourceAmount) (r : String) :
    erase ((a, b) :: t) r = if a == r then t else (a, b) :: erase t r := rfl

theorem get_set_self (m : ResourceAmount) (r : String) (v : ℚ) :
    get (set m r v) r = v := by
  induction m with
  | nil => simp [get]
  | cons p t ih =>
    obtain ⟨a, b⟩ := p
    by_cases h : a == r
    · simp [h]
    · simp [h, ih]

theorem get_set_ne (m : ResourceAmount) (r s : String) (v : ℚ) (h : r ≠ s) :
    get (set m r v) s = get m s := by
  induction m with
  | nil => simp [get, h]
  | cons p t ih =>
    obtain ⟨a, b⟩ := p
    by_cases ha : a == r
    · have : a = r := by simpa using ha
      subst this
      simp [ha, h]
    · simp only [set_cons, ha, if_false, get_cons]
      by_cases hs : a == s
      · simp [hs]
      · simp [hs, ih]

theorem mem_set (m : ResourceAmount) (r : String) (v : ℚ) (q : String × ℚ)
    (hq : q ∈ set m r v) : q = (r, v) ∨ q ∈ m := by
  induction m with
  | nil => simpa [set] using hq
  | cons p t ih =>
    obtain ⟨a, b⟩ := p
    by_cases h : a == r
    · rw [set_cons, if_pos h] at hq
      rcases List.mem_cons.mp hq with h1 | h1
      · exact Or.inl h1
      · exact Or.inr (List.mem_cons_of_mem _ h1)
    · rw [set_cons, if_neg h] at hq
      rcases List.mem_cons.mp hq with h1 | h1
      · exact Or.inr (by simp [h1])
      · rcases ih h1 with h2 | h2
        · exact Or.inl h2
        · exact Or.inr (List.mem_cons_of_mem _ h2)

theorem mem_erase (m : ResourceAmount) (r : String) (q : String × ℚ)
    (hq : q ∈ erase m r) : q ∈ m := by
  induction m with
  | nil => simp [erase] at hq
  | cons p t ih =>
    obtain ⟨a, b⟩ := p
    by_cases h : a == r
    · rw [erase_cons, if_pos h] at hq
      exact List.mem_cons_of_mem _ hq
    · rw [erase_cons, if_neg h] at hq
      rcases List.mem_cons.mp hq with h1 | h1
      · exact by simp [h1]
      · exact List.mem_cons_of_mem _ (ih h1)

theorem allPos_set (m : ResourceAmount) (r : String) (v : ℚ)
    (hm : AllPos m) (hv : 0 < v) : AllPos (set m r v) := by
  intro q hq
  rcases mem_set m r v q hq with h | h
  · subst h; exact hv
  · exact hm q h

theorem allPos_erase (m : ResourceAmount) (r : String) (hm : AllPos m) :
    AllPos (erase m r) :=
  fun q hq => hm q (mem_erase m r q hq)

theorem get_pos_of_allPos (m : ResourceAmount) (r : String) (hm : AllPos m) :
    0 ≤ get m r := by
  induction m with
  | nil => simp
  | cons q t ih =>
    obtain ⟨a, b⟩ := q
    have hb : 0 < b := hm (a, b) (List.mem_cons_self _ _)
    have ht : AllPos t := fun p hp => hm p (List.mem_cons_of_mem _ hp)
    by_cases h : a == r
    · simp [h]; exact le_of_lt hb
    · simp [h]; exact ih ht

end RA

/-- StorageData / Storage from src/game/Storage.ts: resource quantities with
per-resource capacity limits.  `capacity` keys that are absent mean unbounded;
so does a stored capacity of 0, because the source reads
`this.capacity[resource] || Infinity` and 0 is falsy in JavaScript. -/
structure Storage where
  contents : ResourceAmount
  capacity : ResourceAmount
deriving Repr, DecidableEq

namespace Storage

/-- Models `this.capacity[resource] || Infinity`; `none` stands for Infinity. -/
def capOrInf (s : Storage) (resource : String) : Option ℚ :=
  match s.capacity.find? (fun p => p.1 == resource) with
  | some p => if p.2 = 0 then none else some p.2
  | none => none

/-- Storage.get: current amount of a resource. -/
def get (s : Storage) (resource : String) : ℚ :=
  RA.get s.contents resource

/-- Storage.add from src/game/Storage.ts.  Returns the amount actually stored
together with the updated storage. -/
def add (s : Storage) (resource : String) (amount : ℚ) : ℚ × Storage :=
  if amount ≤ 0 then (0, s)
  else
    let current := RA.get s.contents resource
    let toAdd :=
      match capOrInf s resource with
      | none => amount
      | some capacity => min amount (capacity - current)
    (toAdd, { s with contents := RA.set s.contents resource (current + toAdd) })

/-- Storage.remove from src/game/Storage.ts.  Returns the amount actually
removed together with the updated storage. -/
def remove (s : Storage) (resource : String) (amount : ℚ) : ℚ × Storage :=
  if amount ≤ 0 then (0, s)
  else
    let current := RA.get s.contents resource
    let toRemove := min amount current
    let contents := RA.set s.contents resource (current - toRemove)
    let contents :=
      if current - toRemove ≤ 0 then RA.erase contents resource else contents
    (toRemove, { s with contents := contents })

/-- Storage.getFreeSpace; `none` stands for Infinity. -/
def getFreeSpace (s : Storage) (resource : String) : Option ℚ :=
  match capOrInf s resource with
  | none => none
  | some capacity => some (capacity - RA.get s.contents resource)

/-- Storage.setCapacity. -/
def setCapacity (s : Storage) (resource : String) (capacity : ℚ) : Storage :=
  { s with capacity := RA.set s.capacity resource capacity }

/-- Storage.has. -/
def has (s : Storage) (resource : String) (amount : ℚ) : Bool :=
  decide (amount ≤ get s resource)

end Storage

/-- DepositData / Deposit from src/game/Deposit.ts. -/
structure Deposit where
  id : String
  resourceType : String
  totalAmount : ℚ
  remainingAmount : ℚ
  yieldRate : ℚ
  discovered : Bool
deriving Repr, DecidableEq

namespace Deposit

/-- The Deposit constructor: `remainingAmount = totalAmount`,
`discovered = true`. -/
def mk0 (id resourceType : String) (totalAmount : ℚ) (yieldRate : ℚ) : Deposit :=
  { id := id
    resourceType := resourceType
    totalAmount := totalAmount
    remainingAmount := totalAmount
    yieldRate := yieldRate
    discovered := true }

/-- Deposit.isDepleted. -/
def isDepleted (d : Deposit) : Bool :=
  decide (d.remainingAmount ≤ 0)

/-- Deposit.extract from src/game/Deposit.ts.  Returns the amount actually
extracted together with the updated deposit. -/
def extract (d : Deposit) (requestedAmount : ℚ) : ℚ × Deposit :=
  if ¬d.discovered ∨ d.remainingAmount ≤ 0 then (0, d)
  else
    let extracted := min requestedAmount d.remainingAmount
    (extracted, { d with remainingAmount := d.remainingAmount - extracted })

/-- Deposit.discover. -/
def discover (d : Deposit) : Deposit :=
  { d with discovered := true }

/-- Deposit.deserialize: rebuilds a deposit from arbitrary saved data,
including the saved `remainingAmount` and `discovered` flag. -/
def deserialize (id resourceType : String) (totalAmount remainingAmount yieldRate : ℚ)
    (discovered : Bool) : Deposit :=
  { mk0 id resourceType totalAmount yieldRate with
    remainingAmount := remainingAmount
    discovered := discovered }

end Deposit

/-- RecipeDefinition from src/game/Recipe.ts: input/output rates in units per
second, kept in declaration order. -/
structure RecipeDefinition where
  id : String
  inputRates : ResourceAmount
  outputRates : ResourceAmount
deriving Repr, DecidableEq

/-- MachineDefinition from src/game/Machine.ts (only the field the simulation
core reads; `none` models a missing bufferSize). -/
structure MachineDefinition where
  id : String
  bufferSize : Option ℚ
deriving Repr, DecidableEq

/-- PipeDefinition from src/game/Pipe.ts. -/
structure PipeDefinition where
  id : String
  throughput : ℚ
  tier : ℚ
deriving Repr, DecidableEq

/-- The recipe table of src/game/GameDefs.ts, in declaration order. -/
def Recipes : List (String × RecipeDefinition) :=
  [ ("smelt_iron",
      { id := "smelt_iron"
        inputRates := [("iron_ore", 1), ("coal", 1)]
        outputRates := [("iron_ingot", 1)] }),
    ("smelt_copper",
      { id := "smelt_copper"
        inputRates := [("copper_ore", 1), ("coal", 1)]
        outputRates := [("copper_ingot", 1)] }),
    ("smelt_steel",
      { id := "smelt_steel"
        inputRates := [("iron_ingot", 2), ("coal", 1)]
        outputRates := [("steel_ingot", 1)] }),
    ("mine_iron",
      { id := "mine_iron"
        inputRates := []
        outputRates := [("iron_ore", 1)] }),
    ("mine_coal",
      { id := "mine_coal"
        inputRates := []
        outputRates := [("coal", 1)] }),
    ("mine_copper",
      { id := "mine_copper"
        inputRates := []
        outputRates := [("copper_ore", 1)] }),
    ("assemble_circuit",
      { id := "assemble_circuit"
        inputRates := [("copper_ingot", 2), ("iron_ingot", 1)]
        outputRates := [("circuit", 1)] }) ]

/-- The machine table of src/game/GameDefs.ts. -/
def MachineDefs : List (String × MachineDefinition) :=
  [ ("miner", { id := "miner", bufferSize := some 50 }),
    ("furnace", { id := "furnace", bufferSize := some 100 }),
    ("assembler", { id := "assembler", bufferSize := some 100 }) ]

/-- The pipe table of src/game/GameDefs.ts. -/
def Pipes : List (String × PipeDefinition) :=
  [ ("basic_pipe", { id := "basic_pipe", throughput := 5, tier := 1 }),
    ("improved_pipe", { id := "improved_pipe", throughput := 15, tier := 2 }),
    ("advanced_pipe", { id := "advanced_pipe", throughput := 50, tier := 3 }),
    ("express_pipe", { id := "express_pipe", throughput := 150, tier := 4 }) ]

/-- Record lookup `table[key]`, `undefined` as `none`. -/
def tableGet {α : Type} (table : List (String × α)) (key : String) : Option α :=
  (table.find? (fun p => p.1 == key)).map (·.2)

/-- GameDefsT: the `defs` bundle passed into Module.tick and
Module.deserialize. -/
structure GameDefsT where
  machines : List (String × MachineDefinition)
  recipes : List (String × RecipeDefinition)
deriving Repr, DecidableEq

/-- The standard bundle `{ machines: MachineDefs, recipes: Recipes }`. -/
def StdDefs : GameDefsT :=
  { machines := MachineDefs, recipes := Recipes }

/-- Link from src/game/Link.ts as used by the current Module: endpoints are
slot ids or the sentinel "global_storage", with an embedded pipe definition. -/
structure Link where
  id : String
  fromId : String
  toId : String
  resource : String
  pipeDefinition : PipeDefinition
deriving Repr, DecidableEq

/-- LinkData: the serialized form of a link. -/
structure LinkData where
  id : String
  fromId : String
  toId : String
  resource : String
  pipeType : String
deriving Repr, DecidableEq

/-- Link.serialize. -/
def Link.serialize (l : Link) : LinkData :=
  { id := l.id
    fromId := l.fromId
    toId := l.toId
    resource := l.resource
    pipeType := l.pipeDefinition.id }

/-- Link.deserialize. -/
def Link.deserialize (data : LinkData) (pipeDef : PipeDefinition) : Link :=
  { id := data.id
    fromId := data.fromId
    toId := data.toId
    resource := data.resource
    pipeDefinition := pipeDef }

/-- MachineSlot from src/game/Module.ts. -/
structure MachineSlot where
  slotId : String
  machineType : String
  recipe : Option String
  machineCount : ℚ
  depositId : Option String
deriving Repr, DecidableEq

/-- SlotBuffer from src/game/Module.ts: derived per-slot buffers. -/
structure SlotBuffer where
  input : ResourceAmount
  output : ResourceAmount
  capacity : ℚ
deriving Repr, DecidableEq

namespace Geared

/-- Module from src/game/Module.ts: slots, links and the derived slot-buffer
map (a JavaScript Map keyed by slotId, in insertion order). -/
structure Module where
  id : String
  name : String
  machineSlots : List MachineSlot
  links : List Link
  enabled : Bool
  slotBuffers : List (String × SlotBuffer)
deriving Repr, DecidableEq

namespace Module

/-- The Module constructor. -/
def mk0 (id name : String) : Module :=
  { id := id
    name := name
    machineSlots := []
    links := []
    enabled := true
    slotBuffers := [] }

/-- Module.addMachineSlot. -/
def addMachineSlot (m : Module) (slotId machineType : String)
    (recipe : Option String) (machineCount : ℚ) (depositId : Option String) :
    Module :=
  { m with
    machineSlots := m.machineSlots ++
      [{ slotId := slotId
         machineType := machineType
         recipe := recipe
         machineCount := machineCount
         depositId := depositId }] }

/-- Module.addLink. -/
def addLink (m : Module) (l : Link) : Module :=
  { m with links := m.links ++ [l] }

/-- Module.getSlotInputs: the keys of the recipe's inputRates, else []. -/
def getSlotInputs (slot : MachineSlot) (recipes : List (String × RecipeDefinition)) :
    List String :=
  match slot.recipe with
  | none => []
  | some rid =>
    match tableGet recipes rid with
    | none => []
    | some recipe => recipe.inputRates.map (·.1)

/-- Module.getSlotOutputs: the keys of the recipe's outputRates, else []. -/
def getSlotOutputs (slot : MachineSlot) (recipes : List (String × RecipeDefinition)) :
    List String :=
  match slot.recipe with
  | none => []
  | some rid =>
    match tableGet recipes rid with
    | none => []
    | some recipe => recipe.outputRates.map (·.1)

/-- The issues contributed by one slot in Module.validateLinks: one per input
resource with no link into the slot, then one per output resource with no
link out of the slot. -/
def slotIssues (m : Module) (recipes : List (String × RecipeDefinition))
    (slot : MachineSlot) : List String :=
  ((getSlotInputs slot recipes).filter
      (fun resource => ¬m.links.any
        (fun l => l.toId == slot.slotId && l.resource == resource))).map
    (fun resource => "Slot " ++ slot.slotId ++ ": Missing input link for " ++ resource)
  ++
  ((getSlotOutputs slot recipes).filter
      (fun resource => ¬m.links.any
        (fun l => l.fromId == slot.slotId && l.resource == resource))).map
    (fun resource => "Slot " ++ slot.slotId ++ ": Missing output link for " ++ resource)

/-- Whether an id is a valid link endpoint: a known slotId or the sentinel. -/
def validId (m : Module) (x : String) : Bool :=
  m.machineSlots.any (fun s => s.slotId == x) || x == "global_storage"

/-- The issues contributed by one link in Module.validateLinks. -/
def linkIssues (m : Module) (l : Link) : List String :=
  (if validId m l.fromId then []
   else ["Link " ++ l.id ++ ": Invalid source " ++ "'" ++ l.fromId ++ "'"])
  ++
  (if validId m l.toId then []
   else ["Link " ++ l.id ++ ": Invalid target " ++ "'" ++ l.toId ++ "'"])

/-- ValidationResult: the record returned by Module.validateLinks. -/
structure ValidationResult where
  valid : Bool
  issues : List String
  warnings : List String
deriving Repr, DecidableEq

/-- Module.validateLinks from src/game/Module.ts, with the recipe table
provided (the no-recipes warning path takes `none`). -/
def validateLinks (m : Module) (recipes : Option (List (String × RecipeDefinition))) :
    ValidationResult :=
  match recipes with
  | none => { valid := true, issues := [], warnings := ["No recipes provided for validation"] }
  | some recipes =>
    let issues :=
      (m.machineSlots.flatMap (slotIssues m recipes)) ++
      (m.links.flatMap (linkIssues m))
    { valid := issues.isEmpty, issues := issues, warnings := [] }

/-- Module.isValid. -/
def isValid (m : Module) (recipes : Option (List (String × RecipeDefinition))) : Bool :=
  (m.validateLinks recipes).valid

end Module

/-- Generic association update for JavaScript Map/object fields: replace the
first entry with the key, or append. -/
def amSet {α : Type} (m : List (String × α)) (k : String) (v : α) :
    List (String × α) :=
  match m with
  | [] => [(k, v)]
  | (a, b) :: t => if a == k then (k, v) :: t else (a, b) :: amSet t k v

/-- DepositMap: the `deposits` record passed through Module.tick. -/
abbrev DepositMap := List (String × Deposit)

namespace Module

/-- One step of Module.updateSlotBuffers for a single slot: create the buffer
if missing (empty input/output), otherwise update only its capacity.  Skipped
when the machine type is unknown or its bufferSize is falsy. -/
def updateSlotBuffersStep (machines : List (String × MachineDefinition))
    (bufs : List (String × SlotBuffer)) (slot : MachineSlot) :
    List (String × SlotBuffer) :=
  match tableGet machines slot.machineType with
  | none => bufs
  | some machineDef =>
    match machineDef.bufferSize with
    | none => bufs
    | some bufferSize =>
      if bufferSize = 0 then bufs
      else
        let capacity := bufferSize * slot.machineCount
        match tableGet bufs slot.slotId with
        | some b => amSet bufs slot.slotId { b with capacity := capacity }
        | none =>
          bufs ++ [(slot.slotId, { input := [], output := [], capacity := capacity })]

/-- Module.updateSlotBuffers from src/game/Module.ts: refresh capacities and
create buffers for all slots, then drop buffers whose slot disappeared. -/
def updateSlotBuffers (m : Module) (machines : List (String × MachineDefinition)) :
    Module :=
  let bufs := m.machineSlots.foldl (updateSlotBuffersStep machines) m.slotBuffers
  let active := m.machineSlots.map (fun s => s.slotId)
  { m with slotBuffers := bufs.filter (fun p => active.contains p.1) }

/-- The yield-multiplier block of the production phase; `none` means the slot
is skipped this tick (depleted deposit, missing deposit, or a mining slot
with no bound deposit). -/
def yieldMultiplierFor (deposits : Option DepositMap) (slot : MachineSlot)
    (isMining : Bool) : Option ℚ :=
  if isMining then
    match slot.depositId, deposits with
    | some depositId, some dmap =>
      match tableGet dmap depositId with
      | some dep =>
        if dep.discovered ∧ ¬dep.isDepleted then some dep.yieldRate
        else if dep.isDepleted then none
        else some 1
      | none => none
    | none, _ => none
    | some _, none => some 1
  else some 1

/-- The commit loop over one scaled input-rate list: consume `rate * dt`,
deleting keys that drop to 0 or below. -/
def consumeInputs (dt : ℚ) (scaledInputRates : ResourceAmount)
    (input : ResourceAmount) : ResourceAmount :=
  scaledInputRates.foldl
    (fun acc p =>
      let v := RA.get acc p.1 - p.2 * dt
      let acc2 := RA.set acc p.1 v
      if v ≤ 0 then RA.erase acc2 p.1 else acc2)
    input

/-- The commit loop over one scaled output-rate list: produce
`rate * dt * yieldMultiplier` into the output buffer and, for mining slots,
extract the same amount from the bound deposit. -/
def produceOutputs (dt yieldMultiplier : ℚ) (scaledOutputRates : ResourceAmount)
    (isMining : Bool) (slot : MachineSlot)
    (output : ResourceAmount) (deposits : Option DepositMap) :
    ResourceAmount × Option DepositMap :=
  scaledOutputRates.foldl
    (fun st p =>
      let toProduce := p.2 * dt * yieldMultiplier
      let out2 := RA.set st.1 p.1 (RA.get st.1 p.1 + toProduce)
      let deps2 :=
        if isMining then
          match slot.depositId, st.2 with
          | some depositId, some dmap =>
            match tableGet dmap depositId with
            | some dep => some (amSet dmap depositId (dep.extract toProduce).2)
            | none => st.2
          | _, _ => st.2
        else st.2
      (out2, deps2))
    (output, deposits)

/-- Production for a single slot (the Phase 1 loop body of src/game/Module.ts
tick): the all-or-nothing gate followed by the commit, threading the shared
slot-buffer map and deposit map. -/
def produceSlot (dt : ℚ) (defs : GameDefsT)
    (st : List (String × SlotBuffer) × Option DepositMap) (slot : MachineSlot) :
    List (String × SlotBuffer) × Option DepositMap :=
  if slot.machineCount = 0 then st
  else
    match slot.recipe with
    | none => st
    | some rid =>
      match tableGet defs.recipes rid with
      | none => st
      | some recipe =>
        match tableGet st.1 slot.slotId with
        | none => st
        | some buffer =>
          let scaledInputRates :=
            recipe.inputRates.map (fun p => (p.1, p.2 * slot.machineCount))
          let scaledOutputRates :=
            recipe.outputRates.map (fun p => (p.1, p.2 * slot.machineCount))
          let isMining := recipe.inputRates.isEmpty
          match yieldMultiplierFor st.2 slot isMining with
          | none => st
          | some yieldMultiplier =>
            let canProduce :=
              scaledInputRates.all
                (fun p => ¬(RA.get buffer.input p.1 < p.2 * dt)) &&
              scaledOutputRates.all
                (fun p =>
                  ¬(RA.get buffer.output p.1 + p.2 * dt * yieldMultiplier >
                    buffer.capacity))
            if canProduce then
              let input2 := consumeInputs dt scaledInputRates buffer.input
              let od :=
                produceOutputs dt yieldMultiplier scaledOutputRates isMining slot
                  buffer.output st.2
              (amSet st.1 slot.slotId
                { buffer with input := input2, output := od.1 }, od.2)
            else st

/-- Modelled from the spec: Module.tick(dt, defs, deposits) of the repository
head is Phase 1 only (the transfer phase moved to the separate runTransfers);
it is missing from src/, where tick still folds both phases together.  Its
body is the enabled/validity gate, buffer maintenance and the Phase 1
production loop of src/game/Module.ts, verbatim. -/
def tick (m : Module) (dt : ℚ) (defs : GameDefsT) (deposits : Option DepositMap) :
    Module × Option DepositMap :=
  if ¬m.enabled then (m, deposits)
  else if ¬m.isValid (some defs.recipes) then (m, deposits)
  else
    let m2 := updateSlotBuffers m defs.machines
    let st :=
      m2.machineSlots.foldl (produceSlot dt defs) (m2.slotBuffers, deposits)
    ({ m2 with slotBuffers := st.1 }, st.2)

/-- One link transfer (the Phase 2 loop body of src/game/Module.ts tick):
resolve endpoints against the slot-buffer map and the optional global
storage, cap by source amount, target space and pipe throughput, then move. -/
def transferLink (dt : ℚ) (st : List (String × SlotBuffer) × Option Storage)
    (link : Link) : List (String × SlotBuffer) × Option Storage :=
  let bufs := st.1
  let gs := st.2
  let maxTransfer := link.pipeDefinition.throughput * dt
  let fromStorage := link.fromId == "global_storage" && gs.isSome
  let toStorage := link.toId == "global_storage" && gs.isSome
  let sourceAmount : Option ℚ :=
    if fromStorage then (gs.map (fun s => s.get link.resource))
    else
      match tableGet bufs link.fromId with
      | some b => some (RA.get b.output link.resource)
      | none => none
  let targetSpace : Option (Option ℚ) :=
    if toStorage then (gs.map (fun s => s.getFreeSpace link.resource))
    else
      match tableGet bufs link.toId with
      | some b => some (some (b.capacity - RA.get b.input link.resource))
      | none => none
  match sourceAmount, targetSpace with
  | some sourceAmount, some targetSpace =>
    let base := min sourceAmount maxTransfer
    let toTransfer :=
      match targetSpace with
      | none => base
      | some space => min base space
    if toTransfer ≤ 0 then (bufs, gs)
    else
      let afterSource : List (String × SlotBuffer) × Option Storage :=
        if fromStorage then
          (bufs, gs.map (fun s => (s.remove link.resource toTransfer).2))
        else
          match tableGet bufs link.fromId with
          | some b =>
            let v := RA.get b.output link.resource - toTransfer
            let out := RA.set b.output link.resource v
            let out := if v ≤ 0 then RA.erase out link.resource else out
            (amSet bufs link.fromId { b with output := out }, gs)
          | none => (bufs, gs)
      let bufs2 := afterSource.1
      let gs2 := afterSource.2
      if toStorage then
        (bufs2, gs2.map (fun s => (s.add link.resource toTransfer).2))
      else
        match tableGet bufs2 link.toId with
        | some b =>
          (amSet bufs2 link.toId
            { b with
              input :=
                RA.set b.input link.resource
                  (RA.get b.input link.resource + toTransfer) }, gs2)
        | none => (bufs2, gs2)
  | _, _ => (bufs, gs)

/-- Modelled from the spec: Module.runTransfers(dt, globalStorage) of the
repository head is missing from src/; its loop body is the Phase 2 transfer
section of src/game/Module.ts tick, verbatim, run over the links in list
order. -/
def runTransfers (m : Module) (dt : ℚ) (globalStorage : Option Storage) :
    Module × Option Storage :=
  let st := m.links.foldl (transferLink dt) (m.slotBuffers, globalStorage)
  ({ m with slotBuffers := st.1 }, st.2)

end Module

/-- SlotData: the serialized form of a machine slot.  Modelled from the spec:
the snapshot Slot record carries `depositId?`; the stale Module.serialize
under src/ predates deposit bindings. -/
structure SlotData where
  slotId : String
  machineType : String
  recipe : Option String
  machineCount : ℚ
  depositId : Option String
deriving Repr, DecidableEq

/-- ModuleData: the serialized form of a module. -/
structure ModuleData where
  id : String
  name : String
  machineSlots : List SlotData
  links : List LinkData
  enabled : Bool
deriving Repr, DecidableEq

namespace Module

/-- PipeTable: the `pipes` table handed to Module.deserialize. -/
abbrev PipeTable := List (String × PipeDefinition)

/-- Module.serialize: slots and links without the derived slot buffers. -/
def serialize (m : Module) : ModuleData :=
  { id := m.id
    name := m.name
    machineSlots := m.machineSlots.map (fun s =>
      { slotId := s.slotId
        machineType := s.machineType
        recipe := s.recipe
        machineCount := s.machineCount
        depositId := s.depositId })
    links := m.links.map Link.serialize
    enabled := m.enabled }

/-- Module.deserialize: rebuild slots, re-resolve each link pipe definition
from the pipe table, silently dropping links whose pipe type is unknown. -/
def deserialize (data : ModuleData) (pipes : PipeTable) : Module :=
  let m := Module.mk0 data.id data.name
  let m := data.machineSlots.foldl
    (fun acc s =>
      acc.addMachineSlot s.slotId s.machineType s.recipe s.machineCount s.depositId)
    m
  let m := data.links.foldl
    (fun acc l =>
      match tableGet pipes l.pipeType with
      | some pipeDef => { acc with links := acc.links ++ [Link.deserialize l pipeDef] }
      | none => acc)
    m
  { m with enabled := data.enabled }

end Module

/-- One machine-inventory entry of World.machineInventory. -/
structure InvEntry where
  total : ℚ
  allocated : ℚ
  available : ℚ
deriving Repr, DecidableEq

/-- World from src/game/World.ts plus the deposit map.  Modelled from the
spec: the head World owns `deposits: depositId → Deposit` (its callers under
src/ use World.addDeposit and World.deposits); the World.ts under src/
predates deposits. -/
structure World where
  modules : List Module
  globalStorage : Storage
  tickRate : ℚ
  machineInventory : List (String × InvEntry)
  deposits : DepositMap
deriving Repr, DecidableEq

namespace World

/-- The World constructor. -/
def mk0 (tickRate : ℚ) : World :=
  { modules := []
    globalStorage := { contents := [], capacity := [] }
    tickRate := tickRate
    machineInventory := []
    deposits := [] }

/-- World.addMachinesToInventory: create the entry if missing, bump `total`,
recompute `available`. -/
def addMachinesToInventory (w : World) (machineType : String) (count : ℚ) :
    World :=
  let inv0 :=
    match tableGet w.machineInventory machineType with
    | some e => e
    | none => { total := 0, allocated := 0, available := 0 }
  let e1 : InvEntry :=
    { total := inv0.total + count
      allocated := inv0.allocated
      available := inv0.available }
  let e2 : InvEntry := { e1 with available := e1.total - e1.allocated }
  { w with machineInventory := amSet w.machineInventory machineType e2 }

/-- Modelled from the spec: World.calculateAllocated of the repository head
sums `machineCount` over all modules' slots of the given type; the version
under src/ still reads the removed fields slot.machine and slot.enabled. -/
def calculateAllocated (w : World) (machineType : String) : ℚ :=
  (w.modules.map (fun m =>
    ((m.machineSlots.filter (fun s => s.machineType == machineType)).map
      (fun s => s.machineCount)).sum)).sum

/-- World.refreshMachineInventory: recompute `allocated` and `available` for
every known machine type. -/
def refreshMachineInventory (w : World) : World :=
  { w with
    machineInventory := w.machineInventory.map (fun p =>
      let a := calculateAllocated w p.1
      (p.1, { p.2 with allocated := a, available := p.2.total - a })) }

/-- World.addModule. -/
def addModule (w : World) (m : Module) : World :=
  { w with modules := w.modules ++ [m] }

/-- Modelled from the spec: World.addDeposit stores a deposit in the
depositId-keyed map. -/
def addDeposit (w : World) (d : Deposit) : World :=
  { w with deposits := amSet w.deposits d.id d }

/-- Phase 1 of World.tick: run production for each module in list order,
threading the shared deposit map. -/
def productionPhase (w : World) : World :=
  let st := w.modules.foldl
    (fun (acc : List Module × Option DepositMap) m =>
      let r := m.tick w.tickRate StdDefs acc.2
      (acc.1 ++ [r.1], r.2))
    ([], some w.deposits)
  { w with
    modules := st.1
    deposits := (st.2).getD w.deposits }

/-- One transfer pass of World.tick: runTransfers for each module in list
order, threading the global storage. -/
def transferPass (w : World) : World :=
  let st := w.modules.foldl
    (fun (acc : List Module × Option Storage) m =>
      let r := m.runTransfers w.tickRate acc.2
      (acc.1 ++ [r.1], r.2))
    ([], some w.globalStorage)
  { w with
    modules := st.1
    globalStorage := (st.2).getD w.globalStorage }

/-- Modelled from the spec: World.tick of the repository head runs Phase 1
(production) for every module in list order with the shared deposit map,
then runs Phase 2 (runTransfers) for every module, twice, in module list
order each pass.  The World.tick under src/ predates this orchestration. -/
def tick (w : World) : World :=
  transferPass (transferPass (productionPhase w))

end World

end Geared

/-- StorageData: the serialized form of a storage. -/
structure StorageData where
  contents : ResourceAmount
  capacity : ResourceAmount
deriving Repr, DecidableEq

/-- Storage.serialize (the source copies both records). -/
def Storage.serialize (s : Storage) : StorageData :=
  { contents := s.contents, capacity := s.capacity }

/-- Storage.deserializeData (Storage.deserialize of the source). -/
def Storage.deserializeData (data : StorageData) : Storage :=
  { contents := data.contents, capacity := data.capacity }

/-- DepositData: the serialized form of a deposit. -/
structure DepositData where
  id : String
  resourceType : String
  totalAmount : ℚ
  remainingAmount : ℚ
  yieldRate : ℚ
  discovered : Bool
deriving Repr, DecidableEq

/-- Deposit.serialize. -/
def Deposit.serialize (d : Deposit) : DepositData :=
  { id := d.id
    resourceType := d.resourceType
    totalAmount := d.totalAmount
    remainingAmount := d.remainingAmount
    yieldRate := d.yieldRate
    discovered := d.discovered }

/-- Deposit.deserializeData (Deposit.deserialize of the source). -/
def Deposit.deserializeData (data : DepositData) : Deposit :=
  Deposit.deserialize data.id data.resourceType data.totalAmount
    data.remainingAmount data.yieldRate data.discovered

namespace Geared

/-- WorldData: the persisted world snapshot of the spec (modules, global
storage, deposits, tick rate, machine-inventory totals only). -/
structure WorldData where
  modules : List ModuleData
  globalStorage : StorageData
  deposits : List DepositData
  tickRate : ℚ
  machineInventory : List (String × ℚ)
deriving Repr, DecidableEq

namespace World

/-- Modelled from the spec: World.serialize of the repository head; the body
under src/ is identical except that it predates the deposits list.  Machine
inventory is flattened to totals only. -/
def serialize (w : World) : WorldData :=
  { modules := w.modules.map Module.serialize
    globalStorage := w.globalStorage.serialize
    deposits := w.deposits.map (fun p => p.2.serialize)
    tickRate := w.tickRate
    machineInventory := w.machineInventory.map (fun p => (p.1, p.2.total)) }

/-- Modelled from the spec: World.deserialize of the repository head; the
body under src/ is identical except that it predates the deposits list.  A
saved tickRate of 0 falls back to 1 (`data.tickRate || 1.0`); modules are
rebuilt against the global definition tables; machine-inventory allocations
are refreshed at the end. -/
def deserialize (data : WorldData) : World :=
  let w := World.mk0 (if data.tickRate = 0 then 1 else data.tickRate)
  let w := { w with globalStorage := Storage.deserializeData data.globalStorage }
  let w := data.machineInventory.foldl
    (fun acc p => acc.addMachinesToInventory p.1 p.2) w
  let w := data.deposits.foldl
    (fun acc dd => { acc with deposits := amSet acc.deposits dd.id (Deposit.deserializeData dd) }) w
  let w := data.modules.foldl
    (fun acc md => { acc with modules := acc.modules ++ [Module.deserialize md Pipes] }) w
  w.refreshMachineInventory

end World

end Geared
namespace RA

theorem find_of_hasKey_false (m : ResourceAmount) (r : String)
    (h : hasKey m r = false) : m.find? (fun p => p.1 == r) = none := by
  induction m with
  | nil => rfl
  | cons p t ih =>
    obtain ⟨a, b⟩ := p
    simp only [hasKey, List.any_cons, Bool.or_eq_false_iff] at h
    simp only [List.find?]
    rw [h.1]
    exact ih (by simpa [hasKey] using h.2)

theorem find_of_hasKey_true (m : ResourceAmount) (r : String)
    (h : hasKey m r = true) : m.find? (fun p => p.1 == r) = some (r, get m r) := by
  induction m with
  | nil => simp [hasKey] at h
  | cons p t ih =>
    obtain ⟨a, b⟩ := p
    by_cases ha : a == r
    · have : a = r := by simpa using ha
      subst this
      simp [List.find?, ha]
    · simp only [hasKey, List.any_cons, ha, Bool.false_or] at h
      simp only [List.find?, ha, get_cons, if_neg]
      · exact ih (by simpa [hasKey] using h)

end RA

namespace Storage

theorem capOrInf_eq (s : Storage) (r : String) :
    s.capOrInf r =
      if RA.hasKey s.capacity r = true ∧ RA.get s.capacity r ≠ 0 then
        some (RA.get s.capacity r)
      else none := by
  by_cases hk : RA.hasKey s.capacity r = true
  · rw [capOrInf, RA.find_of_hasKey_true s.capacity r hk]
    by_cases hz : RA.get s.capacity r = 0
    · simp [hz, hk]
    · simp [hz, hk]
  · rw [capOrInf, RA.find_of_hasKey_false s.capacity r (by simpa using hk)]
    simp [hk]

end Storage

/-- Claim C6 (amended): for every Storage, amounts ≤ 0 make add and remove
no-ops returning 0; for positive amounts remove returns
min(amount, contents[r]), and add returns the amount clamped to free space,
where a missing capacity key OR a capacity of exactly 0 means unbounded
(`capacity[r] || Infinity`); the returned amount and the resulting contents
are nonnegative provided contents[r] was nonnegative and within the (finite,
nonzero) capacity beforehand. -/
theorem storage_add_remove_spec (s : Storage) (r : String) (a : ℚ) :
    (a ≤ 0 → s.add r a = (0, s) ∧ s.remove r a = (0, s)) ∧
    (0 < a → (s.remove r a).1 = min a (s.get r)) ∧
    (0 < a → RA.hasKey s.capacity r = false ∨ RA.get s.capacity r = 0 →
      (s.add r a).1 = a) ∧
    (0 < a → RA.hasKey s.capacity r = true → RA.get s.capacity r ≠ 0 →
      (s.add r a).1 = min a (RA.get s.capacity r - s.get r)) ∧
    (0 < a → 0 ≤ s.get r →
      (RA.hasKey s.capacity r = true → RA.get s.capacity r ≠ 0 →
        s.get r ≤ RA.get s.capacity r) →
      0 ≤ (s.add r a).1 ∧ 0 ≤ (s.add r a).2.get r) := by
  have hcap := Storage.capOrInf_eq s r
  refine ⟨?_, ?_, ?_, ?_, ?_⟩
  · intro ha
    constructor
    · simp [Storage.add, ha]
    · simp [Storage.remove, ha]
  · intro ha
    simp [Storage.remove, Storage.get, not_le.mpr ha]
  · intro ha hz
    have : s.capOrInf r = none := by
      rw [hcap]
      rcases hz with hz | hz
      · simp [hz]
      · simp [hz]
    simp [Storage.add, not_le.mpr ha, this]
  · intro ha hk hz
    have : s.capOrInf r = some (RA.get s.capacity r) := by
      rw [hcap]; simp [hk, hz]
    simp [Storage.add, not_le.mpr ha, this, Storage.get]
  · intro ha hc hcapge
    by_cases hsome : RA.hasKey s.capacity r = true ∧ RA.get s.capacity r ≠ 0
    · have hof : s.capOrInf r = some (RA.get s.capacity r) := by
        rw [hcap]; simp [hsome.1, hsome.2]
      have hle : s.get r ≤ RA.get s.capacity r := hcapge hsome.1 hsome.2
      have hc2 : 0 ≤ RA.get s.contents r := hc
      have hle2 : RA.get s.contents r ≤ RA.get s.capacity r := hle
      have htoAdd : 0 ≤ min a (RA.get s.capacity r - RA.get s.contents r) := by
        apply le_min (le_of_lt ha)
        linarith
      constructor
      · simp only [Storage.add, not_le.mpr ha, if_false, hof]
        exact htoAdd
      · simp only [Storage.add, not_le.mpr ha, if_false, hof, Storage.get]
        rw [RA.get_set_self]
        linarith
    · have hof : s.capOrInf r = none := by
        rw [hcap]; simp [hsome]
      have hc2 : 0 ≤ RA.get s.contents r := hc
      constructor
      · simp only [Storage.add, not_le.mpr ha, if_false, hof]
        exact le_of_lt ha
      · simp only [Storage.add, not_le.mpr ha, if_false, hof, Storage.get]
        rw [RA.get_set_self]
        linarith

/-- Witness for storage_add_remove_spec at a concrete storage holding 3 of
"r" with capacity 10, adding and removing 4. -/
theorem storage_add_remove_spec_witness :
    (Storage.add ⟨[("r", 3)], [("r", 10)]⟩ "r" 4).1 = min 4 (10 - 3) ∧
    (Storage.remove ⟨[("r", 3)], [("r", 10)]⟩ "r" 4).1 = min 4 3 := by
  have h := storage_add_remove_spec ⟨[("r", 3)], [("r", 10)]⟩ "r" 4
  constructor
  · have h4 := h.2.2.2.1 (by norm_num) (by norm_num [RA.hasKey]) (by norm_num [RA.get, List.find?])
    rw [h4]
    norm_num [RA.get, Storage.get, List.find?]
  · have h2 := h.2.1 (by norm_num)
    rw [h2]
    norm_num [RA.get, Storage.get, List.find?]

/-- Counterexample to claim C6 as stated: a stored capacity of exactly 0 is
treated as unbounded (add returns the full 5, not the 0 the claimed clamp
min(5, 0 − 0) gives), and on a storage whose contents exceed its capacity the
claimed clamp makes the returned amount negative (here −10). -/
theorem storage_add_spec_counterexample :
    (Storage.add ⟨[], [("r", 0)]⟩ "r" 5).1 = 5 ∧
    (Storage.add ⟨[("r", 20)], [("r", 10)]⟩ "r" 5).1 = -10 ∧
    ¬(0 : ℚ) ≤ -10 := by
  refine ⟨?_, ?_, by norm_num⟩
  · norm_num [Storage.add, Storage.capOrInf, RA.get, List.find?]
  · norm_num [Storage.add, Storage.capOrInf, RA.get, List.find?]

/-- Deposit.applyOps: an arbitrary sequence of the two simulation operations
that touch a deposit after construction: extract (some amount) and discover
(none). -/
def Deposit.applyOps (d : Deposit) (ops : List (Option ℚ)) : Deposit :=
  ops.foldl
    (fun acc op =>
      match op with
      | some q => (acc.extract q).2
      | none => acc.discover)
    d

theorem Deposit.extract_discovered (d : Deposit) (q : ℚ) :
    (d.extract q).2.discovered = d.discovered := by
  rw [Deposit.extract]
  split
  · rfl
  · rfl

theorem Deposit.extract_remaining_le (d : Deposit) (q : ℚ) (hq : 0 ≤ q) :
    (d.extract q).2.remainingAmount ≤ d.remainingAmount := by
  rw [Deposit.extract]
  split
  · rfl
  · rename_i h
    push_neg at h
    simp only
    have : 0 ≤ min q d.remainingAmount := le_min hq (le_of_lt h.2)
    linarith

/-- Claim C7 (amended): extract returns 0 and changes nothing on an
undiscovered or depleted deposit; otherwise it returns
min(requested, remainingAmount) and decreases remainingAmount by exactly
that value; remainingAmount never increases across any sequence of extract
calls whose requested amounts are nonnegative (a negative request increases
it). -/
theorem deposit_extract_spec (d : Deposit) (requested : ℚ) :
    (d.discovered = false ∨ d.remainingAmount ≤ 0 → d.extract requested = (0, d)) ∧
    (d.discovered = true → 0 < d.remainingAmount →
      (d.extract requested).1 = min requested d.remainingAmount ∧
      (d.extract requested).2.remainingAmount
        = d.remainingAmount - min requested d.remainingAmount) ∧
    (∀ reqs : List ℚ, (∀ q ∈ reqs, 0 ≤ q) →
      (reqs.foldl (fun acc q => (acc.extract q).2) d).remainingAmount
        ≤ d.remainingAmount) := by
  refine ⟨?_, ?_, ?_⟩
  · intro h
    rw [Deposit.extract, if_pos]
    rcases h with h | h
    · exact Or.inl (by simp [h])
    · exact Or.inr h
  · intro hd hr
    rw [Deposit.extract, if_neg]
    · exact ⟨rfl, rfl⟩
    · push_neg
      exact ⟨by simp [hd], hr⟩
  · intro reqs
    induction reqs generalizing d with
    | nil => intro _; exact le_refl _
    | cons q t ih =>
      intro hall
      have h1 : (Deposit.extract d q).2.remainingAmount ≤ d.remainingAmount :=
        Deposit.extract_remaining_le d q (hall q (List.mem_cons_self _ _))
      have h2 := ih (d.extract q).2 (fun x hx => hall x (List.mem_cons_of_mem _ hx))
      simp only [List.foldl_cons]
      exact le_trans h2 h1

/-- Witness for deposit_extract_spec: a fresh deposit holding 10, extract 3
then 4 in sequence never increases the remaining amount, and a single
extract of 3 returns min 3 10. -/
theorem deposit_extract_spec_witness :
    ((Deposit.mk0 "d" "iron_ore" 10 1).extract 3).1 = min 3 10 ∧
    (([3, 4] : List ℚ).foldl (fun acc q => (acc.extract q).2)
        (Deposit.mk0 "d" "iron_ore" 10 1)).remainingAmount ≤ 10 := by
  have h := deposit_extract_spec (Deposit.mk0 "d" "iron_ore" 10 1) 3
  constructor
  · have h1 := (h.2.1 rfl (by norm_num [Deposit.mk0])).1
    simpa [Deposit.mk0] using h1
  · have h3 := h.2.2 [3, 4] (by intro q hq; simp at hq; rcases hq with rfl | rfl <;> norm_num)
    simpa [Deposit.mk0] using h3

/-- Counterexample to claim C7 as stated: extracting a negative amount from a
discovered, non-depleted deposit increases remainingAmount (from 10 to 15),
so depletion is not monotonic over arbitrary extract sequences. -/
theorem deposit_extract_monotone_counterexample :
    ((Deposit.mk0 "d" "iron_ore" 10 1).extract (-5)).2.remainingAmount = 15 ∧
    ¬((Deposit.mk0 "d" "iron_ore" 10 1).extract (-5)).2.remainingAmount ≤ 10 := by
  constructor
  · norm_num [Deposit.extract, Deposit.mk0]
  · norm_num [Deposit.extract, Deposit.mk0]

/-- Claim C10: constructor-built deposits start discovered; extract never
writes the flag and discover only sets it to true, so along any operation
sequence a constructor-created deposit stays discovered and the
not-discovered branch of extract is unreachable; only deserialize can
produce an undiscovered deposit. -/
theorem deposit_discovered_invariant (id resourceType : String)
    (totalAmount yieldRate : ℚ) (ops : List (Option ℚ)) :
    (Deposit.mk0 id resourceType totalAmount yieldRate).discovered = true ∧
    ((Deposit.mk0 id resourceType totalAmount yieldRate).applyOps ops).discovered
      = true ∧
    (∀ (d : Deposit) (q : ℚ), (d.extract q).2.discovered = d.discovered) ∧
    (∀ d : Deposit, d.discover.discovered = true) ∧
    (∃ data : DepositData, (Deposit.deserializeData data).discovered = false) := by
  have haux : ∀ (l : List (Option ℚ)) (d : Deposit), d.discovered = true →
      (d.applyOps l).discovered = true := by
    intro l
    induction l with
    | nil => intro d hd; exact hd
    | cons op t ih =>
      intro d hd
      rw [Deposit.applyOps, List.foldl_cons]
      match op with
      | some q =>
        exact ih (d.extract q).2 (by rw [Deposit.extract_discovered]; exact hd)
      | none =>
        exact ih d.discover rfl
  refine ⟨rfl, haux ops _ rfl, Deposit.extract_discovered, fun d => rfl, ?_⟩
  exact ⟨⟨"d", "iron_ore", 0, 0, 0, false⟩, rfl⟩
namespace Geared

theorem mem_amSet {α : Type} (m : List (String × α)) (k : String) (v : α)
    (q : String × α) (hq : q ∈ amSet m k v) : q = (k, v) ∨ q ∈ m := by
  induction m with
  | nil => simpa [amSet] using hq
  | cons p t ih =>
    obtain ⟨a, b⟩ := p
    by_cases h : a == k
    · rw [amSet, if_pos h] at hq
      rcases List.mem_cons.mp hq with h1 | h1
      · exact Or.inl h1
      · exact Or.inr (List.mem_cons_of_mem _ h1)
    · rw [amSet, if_neg h] at hq
      rcases List.mem_cons.mp hq with h1 | h1
      · exact Or.inr (by simp [h1])
      · rcases ih h1 with h2 | h2
        · exact Or.inl h2
        · exact Or.inr (List.mem_cons_of_mem _ h2)

/-- The module of the validation-completeness scenario: an iron-miner slot
and an iron-furnace slot with zero links. -/
def exampleInvalidModule : Module :=
  { Module.mk0 "invalid" "Invalid Module" with
    machineSlots :=
      [ { slotId := "miners", machineType := "miner", recipe := some "mine_iron",
          machineCount := 1, depositId := none },
        { slotId := "furnaces", machineType := "furnace", recipe := some "smelt_iron",
          machineCount := 1, depositId := none } ] }

/-- Claim C9: validateLinks reports an issue for each recipe input resource
with no matching inbound link, an issue for each output resource with no
matching outbound link, and an issue for each link endpoint that is neither
a known slotId nor global_storage; valid is true exactly when issues is
empty; the miner+furnace module with zero links reports valid = false with
issues naming the missing iron_ore and coal input links and the missing
iron_ingot output link. -/
theorem module_validateLinks_spec (m : Module)
    (recipes : List (String × RecipeDefinition)) :
    ((m.validateLinks (some recipes)).valid = true ↔
      (m.validateLinks (some recipes)).issues = []) ∧
    (∀ slot ∈ m.machineSlots, ∀ resource ∈ Module.getSlotInputs slot recipes,
      m.links.any (fun l => l.toId == slot.slotId && l.resource == resource) = false →
      ("Slot " ++ slot.slotId ++ ": Missing input link for " ++ resource)
        ∈ (m.validateLinks (some recipes)).issues) ∧
    (∀ slot ∈ m.machineSlots, ∀ resource ∈ Module.getSlotOutputs slot recipes,
      m.links.any (fun l => l.fromId == slot.slotId && l.resource == resource) = false →
      ("Slot " ++ slot.slotId ++ ": Missing output link for " ++ resource)
        ∈ (m.validateLinks (some recipes)).issues) ∧
    (∀ l ∈ m.links, Module.validId m l.fromId = false →
      ("Link " ++ l.id ++ ": Invalid source " ++ "'" ++ l.fromId ++ "'")
        ∈ (m.validateLinks (some recipes)).issues) ∧
    (∀ l ∈ m.links, Module.validId m l.toId = false →
      ("Link " ++ l.id ++ ": Invalid target " ++ "'" ++ l.toId ++ "'")
        ∈ (m.validateLinks (some recipes)).issues) ∧
    ((exampleInvalidModule.validateLinks (some Recipes)).valid = false ∧
      "Slot furnaces: Missing input link for iron_ore"
        ∈ (exampleInvalidModule.validateLinks (some Recipes)).issues ∧
      "Slot furnaces: Missing input link for coal"
        ∈ (exampleInvalidModule.validateLinks (some Recipes)).issues ∧
      "Slot furnaces: Missing output link for iron_ingot"
        ∈ (exampleInvalidModule.validateLinks (some Recipes)).issues) := by
  have hval : (exampleInvalidModule.validateLinks (some Recipes)) =
      { valid := false
        issues := ["Slot miners: Missing output link for iron_ore",
                   "Slot furnaces: Missing input link for iron_ore",
                   "Slot furnaces: Missing input link for coal",
                   "Slot furnaces: Missing output link for iron_ingot"]
        warnings := [] } := by
    rfl
  refine ⟨?_, ?_, ?_, ?_, ?_, ?_⟩
  · simp [Module.validateLinks, List.isEmpty_iff]
  · intro slot hslot resource hres hno
    simp only [Module.validateLinks, List.mem_append]
    left
    rw [List.mem_flatMap]
    refine ⟨slot, hslot, ?_⟩
    rw [Module.slotIssues]
    apply List.mem_append_left
    rw [List.mem_map]
    refine ⟨resource, ?_, rfl⟩
    rw [List.mem_filter]
    refine ⟨hres, ?_⟩
    simp [hno]
  · intro slot hslot resource hres hno
    simp only [Module.validateLinks, List.mem_append]
    left
    rw [List.mem_flatMap]
    refine ⟨slot, hslot, ?_⟩
    rw [Module.slotIssues]
    apply List.mem_append_right
    rw [List.mem_map]
    refine ⟨resource, ?_, rfl⟩
    rw [List.mem_filter]
    refine ⟨hres, ?_⟩
    simp [hno]
  · intro l hl hbad
    simp only [Module.validateLinks, List.mem_append]
    right
    rw [List.mem_flatMap]
    refine ⟨l, hl, ?_⟩
    rw [Module.linkIssues, if_neg (by simp [hbad])]
    apply List.mem_append_left
    exact List.mem_singleton.mpr rfl
  · intro l hl hbad
    simp only [Module.validateLinks, List.mem_append]
    right
    rw [List.mem_flatMap]
    refine ⟨l, hl, ?_⟩
    rw [Module.linkIssues]
    apply List.mem_append_right
    rw [if_neg (by simp [hbad])]
    exact List.mem_singleton.mpr rfl
  · rw [hval]
    refine ⟨rfl, by simp, by simp, by simp⟩

/-- Witness for module_validateLinks_spec: on the example module, the
furnace slot's missing coal input link is reported. -/
theorem module_validateLinks_spec_witness :
    "Slot furnaces: Missing input link for coal"
      ∈ (exampleInvalidModule.validateLinks (some Recipes)).issues := by
  have h := module_validateLinks_spec exampleInvalidModule Recipes
  refine h.2.1
    { slotId := "furnaces", machineType := "furnace", recipe := some "smelt_iron",
      machineCount := 1, depositId := none }
    (by simp [exampleInvalidModule, Module.mk0]) "coal" ?_ rfl
  rw [Module.getSlotInputs]
  simp [tableGet, Recipes, List.find?]

end Geared
namespace Geared

/-- Claim C8: refreshMachineInventory sets, for every machine type present
in the inventory, allocated to the sum of machineCount over all slots of
that type across all modules and available to total minus allocated; and
addMachinesToInventory preserves available = total - allocated for every
type whenever it held before. -/
theorem machine_inventory_spec (w : World) :
    (∀ p ∈ w.refreshMachineInventory.machineInventory,
      p.2.allocated =
        (w.modules.map (fun m =>
          ((m.machineSlots.filter (fun s => s.machineType == p.1)).map
            (fun s => s.machineCount)).sum)).sum ∧
      p.2.available = p.2.total - p.2.allocated) ∧
    (∀ (machineType : String) (count : ℚ),
      (∀ p ∈ w.machineInventory, p.2.available = p.2.total - p.2.allocated) →
      ∀ p ∈ (w.addMachinesToInventory machineType count).machineInventory,
        p.2.available = p.2.total - p.2.allocated) := by
  constructor
  · intro p hp
    rw [World.refreshMachineInventory] at hp
    simp only [List.mem_map] at hp
    obtain ⟨q, hq, hpq⟩ := hp
    subst hpq
    exact ⟨rfl, rfl⟩
  · intro machineType count hinv p hp
    rw [World.addMachinesToInventory] at hp
    rcases mem_amSet _ _ _ _ hp with h | h
    · subst h
      rfl
    · exact hinv p h

/-- Witness for machine_inventory_spec: adding 3 miners to a fresh world
leaves the entry ("miner", total 3, allocated 0, available 3) satisfying
available = total - allocated. -/
theorem machine_inventory_spec_witness :
    (("miner", ({ total := 3, allocated := 0, available := 3 } : InvEntry))
      ∈ ((World.mk0 1).addMachinesToInventory "miner" 3).machineInventory) ∧
    (({ total := 3, allocated := 0, available := 3 } : InvEntry).available =
      ({ total := 3, allocated := 0, available := 3 } : InvEntry).total -
      ({ total := 3, allocated := 0, available := 3 } : InvEntry).allocated) := by
  have hmem : ("miner", ({ total := 3, allocated := 0, available := 3 } : InvEntry))
      ∈ ((World.mk0 1).addMachinesToInventory "miner" 3).machineInventory := by
    rw [World.addMachinesToInventory]
    norm_num [World.mk0, tableGet, amSet]
  refine ⟨hmem, ?_⟩
  exact (machine_inventory_spec (World.mk0 1)).2 "miner" 3
    (by simp [World.mk0]) _ hmem

end Geared
namespace Geared

namespace World

/-- Sequential recursion equivalent to the Phase 1 fold: each module is
produced in list order, threading the shared deposit map left to right. -/
def prodSeq (dt : ℚ) (modules : List Module) (deposits : Option DepositMap) :
    List Module × Option DepositMap :=
  match modules with
  | [] => ([], deposits)
  | m :: ms =>
    let r := m.tick dt StdDefs deposits
    let rest := prodSeq dt ms r.2
    (r.1 :: rest.1, rest.2)

/-- Sequential recursion equivalent to one transfer pass: each module runs
its transfers in list order, threading the global storage left to right. -/
def transSeq (dt : ℚ) (modules : List Module) (gs : Option Storage) :
    List Module × Option Storage :=
  match modules with
  | [] => ([], gs)
  | m :: ms =>
    let r := m.runTransfers dt gs
    let rest := transSeq dt ms r.2
    (r.1 :: rest.1, rest.2)

theorem prodSeq_foldl (dt : ℚ) (modules : List Module)
    (acc : List Module) (deposits : Option DepositMap) :
    modules.foldl
      (fun (st : List Module × Option DepositMap) m =>
        let r := m.tick dt StdDefs st.2
        (st.1 ++ [r.1], r.2))
      (acc, deposits)
    = (acc ++ (prodSeq dt modules deposits).1, (prodSeq dt modules deposits).2) := by
  induction modules generalizing acc deposits with
  | nil => simp [prodSeq]
  | cons m ms ih =>
    rw [List.foldl_cons, prodSeq]
    rw [ih]
    simp

theorem transSeq_foldl (dt : ℚ) (modules : List Module)
    (acc : List Module) (gs : Option Storage) :
    modules.foldl
      (fun (st : List Module × Option Storage) m =>
        let r := m.runTransfers dt st.2
        (st.1 ++ [r.1], r.2))
      (acc, gs)
    = (acc ++ (transSeq dt modules gs).1, (transSeq dt modules gs).2) := by
  induction modules generalizing acc gs with
  | nil => simp [transSeq]
  | cons m ms ih =>
    rw [List.foldl_cons, transSeq]
    rw [ih]
    simp

theorem productionPhase_eq (w : World) :
    w.productionPhase =
      { w with
        modules := (prodSeq w.tickRate w.modules (some w.deposits)).1
        deposits := ((prodSeq w.tickRate w.modules (some w.deposits)).2).getD w.deposits } := by
  rw [productionPhase]
  rw [prodSeq_foldl w.tickRate w.modules [] (some w.deposits)]
  simp

theorem transferPass_eq (w : World) :
    w.transferPass =
      { w with
        modules := (transSeq w.tickRate w.modules (some w.globalStorage)).1
        globalStorage :=
          ((transSeq w.tickRate w.modules (some w.globalStorage)).2).getD w.globalStorage } := by
  rw [transferPass]
  rw [transSeq_foldl w.tickRate w.modules [] (some w.globalStorage)]
  simp

end World

/-- Claim C1: World.tick first runs the production phase for every module in
list order, threading the shared deposit map (prodSeq), and then runs the
transfer phase for every module twice, in module list order each pass
(transSeq); transfers never touch deposits (so all deposit extraction of a
tick happens in the production phase, before any transfer pass), and
production never touches the global storage. -/
theorem world_tick_phase_order (w : World) :
    w.tick = w.productionPhase.transferPass.transferPass ∧
    w.productionPhase.modules
      = (World.prodSeq w.tickRate w.modules (some w.deposits)).1 ∧
    w.productionPhase.deposits
      = ((World.prodSeq w.tickRate w.modules (some w.deposits)).2).getD w.deposits ∧
    w.transferPass.modules
      = (World.transSeq w.tickRate w.modules (some w.globalStorage)).1 ∧
    (∀ v : World, v.transferPass.deposits = v.deposits) ∧
    (∀ v : World, v.productionPhase.globalStorage = v.globalStorage) ∧
    w.tick.deposits = w.productionPhase.deposits ∧
    w.tick.modules.length = w.modules.length := by
  have hprod : ∀ v : World, v.productionPhase.modules.length = v.modules.length := by
    intro v
    rw [World.productionPhase_eq]
    show (World.prodSeq v.tickRate v.modules (some v.deposits)).1.length = _
    generalize some v.deposits = d
    generalize v.modules = ms
    induction ms generalizing d with
    | nil => rfl
    | cons m t ih => rw [World.prodSeq]; simpa using ih _
  have htrans : ∀ v : World, v.transferPass.modules.length = v.modules.length := by
    intro v
    rw [World.transferPass_eq]
    show (World.transSeq v.tickRate v.modules (some v.globalStorage)).1.length = _
    generalize some v.globalStorage = g
    generalize v.modules = ms
    induction ms generalizing g with
    | nil => rfl
    | cons m t ih => rw [World.transSeq]; simpa using ih _
  have hdep : ∀ v : World, v.transferPass.deposits = v.deposits := by
    intro v; rw [World.transferPass_eq]
  have hgs : ∀ v : World, v.productionPhase.globalStorage = v.globalStorage := by
    intro v; rw [World.productionPhase_eq]
  refine ⟨rfl, ?_, ?_, ?_, hdep, hgs, ?_, ?_⟩
  · rw [World.productionPhase_eq]
  · rw [World.productionPhase_eq]
  · rw [World.transferPass_eq]
  · show w.productionPhase.transferPass.transferPass.deposits = _
    rw [hdep, hdep]
  · show w.productionPhase.transferPass.transferPass.modules.length = _
    rw [htrans, htrans, hprod]

end Geared
namespace Geared

/-- The single-miner module of the exact-yield scenario: one miner slot
(machineCount 1, recipe mine_iron at rate 1) bound to deposit "dep", linked
straight to global storage by a pipe of throughput T. -/
def C2Module (T : ℚ) (bufs : List (String × SlotBuffer)) : Module :=
  { id := "m1"
    name := "Miner"
    machineSlots :=
      [ { slotId := "miners", machineType := "miner", recipe := some "mine_iron",
          machineCount := 1, depositId := some "dep" } ]
    links :=
      [ { id := "l1", fromId := "miners", toId := "global_storage",
          resource := "iron_ore",
          pipeDefinition := { id := "pipe", throughput := T, tier := 1 } } ]
    enabled := true
    slotBuffers := bufs }

/-- The exact-yield world before the first tick: unbounded empty global
storage, tick rate 1, and a fresh discovered deposit holding R0. -/
def C2World (R0 T : ℚ) : World :=
  { modules := [C2Module T []]
    globalStorage := { contents := [], capacity := [] }
    tickRate := 1
    machineInventory := []
    deposits := [("dep", Deposit.mk0 "dep" "iron_ore" R0 1)] }

/-- The exact-yield world after k full ticks: k units banked in global
storage, an empty slot buffer, and R0 - k left in the deposit. -/
def C2State (R0 T k : ℚ) : World :=
  { modules := [C2Module T [("miners", { input := [], output := [], capacity := 50 })]]
    globalStorage := { contents := [("iron_ore", k)], capacity := [] }
    tickRate := 1
    machineInventory := []
    deposits := [("dep", { Deposit.mk0 "dep" "iron_ore" R0 1 with remainingAmount := R0 - k })] }

theorem C2_first_tick (R0 T : ℚ) (h1 : 1 ≤ R0) (hT : 1 ≤ T) :
    (C2World R0 T).tick = C2State R0 T 1 := by
  have hd : ¬(R0 ≤ 0) := by linarith
  have hm : min 1 R0 = 1 := min_eq_left (by linarith)
  have hmT : min 1 T = 1 := min_eq_left hT
  have hmT0 : min 0 T = 0 := min_eq_left (by linarith)
  simp [World.tick, World.transferPass, World.productionPhase, Module.tick,
    Module.isValid, Module.validateLinks, Module.slotIssues, Module.linkIssues,
    Module.getSlotInputs, Module.getSlotOutputs, Module.validId,
    Module.updateSlotBuffers, Module.updateSlotBuffersStep,
    Module.produceSlot, Module.yieldMultiplierFor, Module.consumeInputs,
    Module.produceOutputs, Module.transferLink, Module.runTransfers,
    C2World, C2State, C2Module, StdDefs, Recipes, MachineDefs, tableGet,
    amSet, RA.get, RA.set, RA.erase, Deposit.mk0, Deposit.isDepleted,
    Deposit.extract, Storage.get, Storage.add, Storage.remove,
    Storage.capOrInf, Storage.getFreeSpace, List.find?, hd, hm, hmT, hmT0]
  norm_num

theorem C2_step (R0 T k : ℚ) (h1 : 1 ≤ R0 - k) (hT : 1 ≤ T) :
    (C2State R0 T k).tick = C2State R0 T (k + 1) := by
  have hd : ¬(R0 - k ≤ 0) := by linarith
  have hm : min 1 (R0 - k) = 1 := min_eq_left (by linarith)
  have hmT : min 1 T = 1 := min_eq_left hT
  have hmT0 : min 0 T = 0 := min_eq_left (by linarith)
  have hr : R0 - k - 1 = R0 - (k + 1) := by ring
  simp [World.tick, World.transferPass, World.productionPhase, Module.tick,
    Module.isValid, Module.validateLinks, Module.slotIssues, Module.linkIssues,
    Module.getSlotInputs, Module.getSlotOutputs, Module.validId,
    Module.updateSlotBuffers, Module.updateSlotBuffersStep,
    Module.produceSlot, Module.yieldMultiplierFor, Module.consumeInputs,
    Module.produceOutputs, Module.transferLink, Module.runTransfers,
    C2World, C2State, C2Module, StdDefs, Recipes, MachineDefs, tableGet,
    amSet, RA.get, RA.set, RA.erase, Deposit.mk0, Deposit.isDepleted,
    Deposit.extract, Storage.get, Storage.add, Storage.remove,
    Storage.capOrInf, Storage.getFreeSpace, List.find?, hd, hm, hmT, hmT0, hr]
  norm_num

theorem C2_iterate (R0 T : ℚ) (hT : 1 ≤ T) (n : ℕ) (hn1 : 1 ≤ n)
    (hn : (n : ℚ) ≤ R0) :
    World.tick^[n] (C2World R0 T) = C2State R0 T n := by
  induction n with
  | zero => omega
  | succ k ih =>
    by_cases hk : 1 ≤ k
    · have hkR : (k : ℚ) ≤ R0 := by push_cast at hn ⊢; linarith
      rw [Function.iterate_succ_apply', ih hk hkR]
      have h1 : 1 ≤ R0 - (k : ℚ) := by push_cast at hn; linarith
      rw [C2_step R0 T k h1 hT]
      norm_num
    · have hk0 : k = 0 := by omega
      subst hk0
      rw [Function.iterate_one]
      have h1 : 1 ≤ R0 := by push_cast at hn; linarith
      rw [C2_first_tick R0 T h1 hT]
      norm_num

/-- Claim C2: one miner slot (mining recipe at rate 1, machineCount 1) bound
to a discovered deposit holding at least n, linked directly to global
storage through a pipe of throughput T ≥ 1, ticked n times at tickRate 1,
banks exactly n units of iron_ore in global storage and lowers the deposit
remainder by exactly n. -/
theorem single_slot_exact_yield (R0 T : ℚ) (n : ℕ) (hT : 1 ≤ T)
    (hn : (n : ℚ) ≤ R0) :
    (World.tick^[n] (C2World R0 T)).globalStorage.get "iron_ore" = n ∧
    tableGet (World.tick^[n] (C2World R0 T)).deposits "dep"
      = some { Deposit.mk0 "dep" "iron_ore" R0 1 with remainingAmount := R0 - n } := by
  by_cases hn1 : 1 ≤ n
  · rw [C2_iterate R0 T hT n hn1 hn]
    constructor
    · simp [C2State, Storage.get, RA.get, List.find?]
    · simp [C2State, tableGet, List.find?]
  · have hn0 : n = 0 := by omega
    subst hn0
    rw [Function.iterate_zero_apply]
    constructor
    · simp [C2World, Storage.get, RA.get]
    · simp [C2World, tableGet, List.find?, Deposit.mk0]

/-- Witness for single_slot_exact_yield at R0 = 1000, T = 5, n = 10: ten
ticks leave exactly 10 iron_ore in storage and 990 in the deposit. -/
theorem single_slot_exact_yield_witness :
    (World.tick^[10] (C2World 1000 5)).globalStorage.get "iron_ore" = 10 ∧
    tableGet (World.tick^[10] (C2World 1000 5)).deposits "dep"
      = some { Deposit.mk0 "dep" "iron_ore" 1000 1 with remainingAmount := 1000 - 10 } := by
  have h := single_slot_exact_yield 1000 5 10 (by norm_num) (by norm_num)
  constructor
  · rw [h.1]; norm_num
  · rw [h.2]; norm_num

end Geared
namespace RA

theorem total_nil (r : String) : total [] r = 0 := rfl

theorem total_cons (a : String) (b : ℚ) (t : ResourceAmount) (r : String) :
    total ((a, b) :: t) r = (if a == r then b else 0) + total t r := by
  by_cases h : a == r
  · simp [total, h, List.filter]
  · simp [total, h, List.filter]

theorem total_set (m : ResourceAmount) (k : String) (v : ℚ) (r : String) :
    total (set m k v) r = total m r + (if k == r then v - get m k else 0) := by
  induction m with
  | nil =>
    by_cases h : k == r
    · simp [set, total_cons, total_nil, h]
    · simp [set, total_cons, total_nil, h]
  | cons p t ih =>
    obtain ⟨a, b⟩ := p
    by_cases hak : a == k
    · have hak2 : a = k := by simpa using hak
      subst hak2
      rw [set_cons, if_pos (by simp)]
      by_cases har : a == r
      · simp [total_cons, get_cons, har]; ring
      · simp [total_cons, get_cons, har]
    · rw [set_cons, if_neg hak, total_cons, total_cons, ih, get_cons, if_neg hak]
      ring

theorem total_erase (m : ResourceAmount) (k : String) (r : String) :
    total (erase m k) r = total m r - (if k == r then get m k else 0) := by
  induction m with
  | nil => simp [erase, total_nil]
  | cons p t ih =>
    obtain ⟨a, b⟩ := p
    by_cases hak : a == k
    · have hak2 : a = k := by simpa using hak
      subst hak2
      rw [erase_cons, if_pos (by simp)]
      by_cases har : a == r
      · simp [total_cons, get_cons, har]
      · simp [total_cons, get_cons, har]
    · rw [erase_cons, if_neg hak, total_cons, total_cons, ih, get_cons, if_neg hak]
      ring

end RA

namespace Storage

theorem remove_fst (s : Storage) (res : String) (a : ℚ) (ha : 0 < a) :
    (s.remove res a).1 = min a (RA.get s.contents res) := by
  rw [Storage.remove, if_neg (not_le.mpr ha)]

theorem remove_total (s : Storage) (res : String) (a : ℚ) (r : String) :
    RA.total (s.remove res a).2.contents r =
      RA.total s.contents r - (if res == r then (s.remove res a).1 else 0) := by
  by_cases ha : a ≤ 0
  · rw [Storage.remove, if_pos ha]
    simp
  · rw [Storage.remove, if_neg ha]
    simp only
    by_cases hz : RA.get s.contents res - min a (RA.get s.contents res) ≤ 0
    · rw [if_pos hz]
      rw [RA.total_erase, RA.total_set, RA.get_set_self]
      have hmin : min a (RA.get s.contents res) = RA.get s.contents res :=
        le_antisymm (min_le_right _ _) (by linarith)
      rw [hmin]
      by_cases hres : res == r
      · simp [hres]; ring
      · simp [hres]
    · rw [if_neg hz]
      rw [RA.total_set]
      by_cases hres : res == r
      · simp [hres]; ring
      · simp [hres]

theorem add_total (s : Storage) (res : String) (a : ℚ) (r : String) :
    RA.total (s.add res a).2.contents r =
      RA.total s.contents r + (if res == r then (s.add res a).1 else 0) := by
  by_cases ha : a ≤ 0
  · rw [Storage.add, if_pos ha]
    simp
  · rw [Storage.add, if_neg ha]
    simp only
    rw [RA.total_set]
    by_cases hres : res == r
    · simp [hres]
    · simp [hres]

end Storage

namespace Geared

theorem tableGet_amSet {α : Type} (m : List (String × α)) (k : String) (v : α)
    (q : String) :
    tableGet (amSet m k v) q = if k == q then some v else tableGet m q := by
  induction m with
  | nil =>
    by_cases h : k == q <;> simp [amSet, tableGet, List.find?, h]
  | cons p t ih =>
    obtain ⟨a, b⟩ := p
    by_cases hak : a == k
    · have hak2 : a = k := by simpa using hak
      subst hak2
      by_cases haq : a == q <;> simp [amSet, tableGet, List.find?, haq, hak, ih]
    · by_cases haq : a == q
      · have haq2 : a = q := by simpa using haq
        subst haq2
        have hka : ¬(k == a) = true := by
          simp at hak ⊢
          exact fun h => hak h.symm
        simp [amSet, tableGet, List.find?, hak, haq, hka]
      · simp only [amSet, if_neg hak]
        by_cases hkq : k == q <;>
          simp [tableGet, List.find?, haq, hkq, ih] <;>
          simpa [tableGet, hkq] using ih

/-- Per-resource contribution of one slot buffer: input plus output. -/
def bufContrib (b : SlotBuffer) (r : String) : ℚ :=
  RA.total b.input r + RA.total b.output r

/-- Per-resource total across a slot-buffer map. -/
def bufTotal (bufs : List (String × SlotBuffer)) (r : String) : ℚ :=
  (bufs.map (fun p => bufContrib p.2 r)).sum

/-- Per-resource total of an optional storage. -/
def optTotal (gs : Option Storage) (r : String) : ℚ :=
  match gs with
  | some s => RA.total s.contents r
  | none => 0

/-- Per-resource total of a transfer-phase state: all slot buffers plus the
global storage. -/
def stTotal (st : List (String × SlotBuffer) × Option Storage) (r : String) : ℚ :=
  bufTotal st.1 r + optTotal st.2 r

theorem bufTotal_amSet (bufs : List (String × SlotBuffer)) (k : String)
    (b2 : SlotBuffer) (r : String) :
    bufTotal (amSet bufs k b2) r =
      bufTotal bufs r + bufContrib b2 r -
        (match tableGet bufs k with
         | some b => bufContrib b r
         | none => 0) := by
  induction bufs with
  | nil => simp [amSet, bufTotal, tableGet]
  | cons p t ih =>
    obtain ⟨a, b⟩ := p
    by_cases hak : a == k
    · have hak2 : a = k := by simpa using hak
      subst hak2
      rw [amSet, if_pos (by simp)]
      have htg : tableGet ((a, b) :: t) a = some b := by
        simp [tableGet, List.find?]
      rw [htg]
      simp only [bufTotal, List.map_cons, List.sum_cons]
      ring
    · have hfalse : (a == k) = false := by simpa using hak
      rw [amSet, if_neg hak]
      have htg : tableGet ((a, b) :: t) k = tableGet t k := by
        simp [tableGet, List.find?, hfalse]
      rw [htg]
      simp only [bufTotal, List.map_cons, List.sum_cons] at ih ⊢
      rw [ih]
      cases htk : tableGet t k with
      | none => simp [htk]; ring
      | some q => simp [htk]; ring

end Geared
namespace RA

/-- Unique-key invariant of JavaScript objects: no two entries share a key. -/
def KeysND (m : ResourceAmount) : Prop :=
  (m.map Prod.fst).Nodup

theorem mem_keys_set (m : ResourceAmount) (k : String) (v : ℚ) (x : String)
    (hx : x ∈ (set m k v).map Prod.fst) : x = k ∨ x ∈ m.map Prod.fst := by
  rw [List.mem_map] at hx
  obtain ⟨q, hq, hqx⟩ := hx
  rcases mem_set m k v q hq with h | h
  · left; rw [← hqx, h]
  · right; exact List.mem_map.mpr ⟨q, h, hqx⟩

theorem mem_keys_erase (m : ResourceAmount) (k : String) (x : String)
    (hx : x ∈ (erase m k).map Prod.fst) : x ∈ m.map Prod.fst := by
  rw [List.mem_map] at hx
  obtain ⟨q, hq, hqx⟩ := hx
  exact List.mem_map.mpr ⟨q, mem_erase m k q hq, hqx⟩

theorem keysND_set (m : ResourceAmount) (k : String) (v : ℚ) (h : KeysND m) :
    KeysND (set m k v) := by
  induction m with
  | nil => simp [KeysND, set]
  | cons p t ih =>
    obtain ⟨a, b⟩ := p
    rw [KeysND, List.map_cons, List.nodup_cons] at h
    by_cases hak : a == k
    · have hak2 : a = k := by simpa using hak
      subst hak2
      rw [set_cons, if_pos (by simp)]
      rw [KeysND, List.map_cons, List.nodup_cons]
      exact h
    · rw [set_cons, if_neg hak]
      rw [KeysND, List.map_cons, List.nodup_cons]
      constructor
      · intro hmem
        rcases mem_keys_set t k v a hmem with h2 | h2
        · exact hak (by simp [h2])
        · exact h.1 h2
      · exact ih h.2

theorem keysND_erase (m : ResourceAmount) (k : String) (h : KeysND m) :
    KeysND (erase m k) := by
  induction m with
  | nil => simp [KeysND, erase]
  | cons p t ih =>
    obtain ⟨a, b⟩ := p
    rw [KeysND, List.map_cons, List.nodup_cons] at h
    by_cases hak : a == k
    · rw [erase_cons, if_pos hak]
      exact h.2
    · rw [erase_cons, if_neg hak]
      rw [KeysND, List.map_cons, List.nodup_cons]
      exact ⟨fun hmem => h.1 (mem_keys_erase t k a hmem), ih h.2⟩

theorem hasKey_false_of_not_mem (m : ResourceAmount) (k : String)
    (h : k ∉ m.map Prod.fst) : hasKey m k = false := by
  rw [hasKey]
  rw [List.any_eq_false]
  intro p hp
  intro hc
  exact h (List.mem_map.mpr ⟨p, hp, by simpa using hc⟩)

theorem get_eq_zero_of_hasKey_false (m : ResourceAmount) (k : String)
    (h : hasKey m k = false) : get m k = 0 := by
  rw [get, find_of_hasKey_false m k h]

theorem hasKey_erase_of_keysND (m : ResourceAmount) (k : String)
    (hnd : KeysND m) : hasKey (erase m k) k = false := by
  induction m with
  | nil => rfl
  | cons p t ih =>
    obtain ⟨a, b⟩ := p
    rw [KeysND, List.map_cons, List.nodup_cons] at hnd
    by_cases hak : a == k
    · have hak2 : a = k := by simpa using hak
      subst hak2
      rw [erase_cons, if_pos (by simp)]
      exact hasKey_false_of_not_mem t a hnd.1
    · rw [erase_cons, if_neg hak]
      rw [hasKey, List.any_cons]
      rw [Bool.or_eq_false_iff]
      exact ⟨by simpa using hak, ih hnd.2⟩

theorem get_erase_self_of_keysND (m : ResourceAmount) (k : String)
    (hnd : KeysND m) : get (erase m k) k = 0 :=
  get_eq_zero_of_hasKey_false _ _ (hasKey_erase_of_keysND m k hnd)

end RA

namespace Storage

theorem remove_capacity (s : Storage) (res : String) (a : ℚ) :
    (s.remove res a).2.capacity = s.capacity := by
  rw [Storage.remove]
  split <;> rfl

theorem remove_keysND (s : Storage) (res : String) (a : ℚ)
    (h : RA.KeysND s.contents) : RA.KeysND (s.remove res a).2.contents := by
  rw [Storage.remove]
  split
  · exact h
  · simp only
    split
    · exact RA.keysND_erase _ _ (RA.keysND_set _ _ _ h)
    · exact RA.keysND_set _ _ _ h

theorem add_keysND (s : Storage) (res : String) (a : ℚ)
    (h : RA.KeysND s.contents) : RA.KeysND (s.add res a).2.contents := by
  rw [Storage.add]
  split
  · exact h
  · exact RA.keysND_set _ _ _ h

theorem remove_get_self (s : Storage) (res : String) (toT : ℚ) (h0 : 0 < toT)
    (hle : toT ≤ RA.get s.contents res) (hnd : RA.KeysND s.contents) :
    RA.get (s.remove res toT).2.contents res = RA.get s.contents res - toT := by
  rw [Storage.remove, if_neg (not_le.mpr h0)]
  simp only
  have hmin : min toT (RA.get s.contents res) = toT := min_eq_left hle
  rw [hmin]
  by_cases hz : RA.get s.contents res - toT ≤ 0
  · rw [if_pos hz]
    have hz2 : RA.get s.contents res - toT = 0 := le_antisymm hz (by linarith)
    rw [RA.get_erase_self_of_keysND _ _ (RA.keysND_set _ _ _ hnd), hz2]
  · rw [if_neg hz, RA.get_set_self]

end Storage

namespace Geared

/-- Source-side buffer update of one link transfer: decrement the output,
deleting the key when it reaches zero. -/
theorem bufTotal_sourceUpdate (bufs : List (String × SlotBuffer))
    (key res : String) (b : SlotBuffer) (toT : ℚ) (r : String)
    (hb : tableGet bufs key = some b)
    (hle : toT ≤ RA.get b.output res) :
    bufTotal (amSet bufs key
      { b with output :=
          (if RA.get b.output res - toT ≤ 0 then
            RA.erase (RA.set b.output res (RA.get b.output res - toT)) res
          else RA.set b.output res (RA.get b.output res - toT)) }) r
    = bufTotal bufs r - (if res == r then toT else 0) := by
  rw [bufTotal_amSet, hb]
  have hout : RA.total
      (if RA.get b.output res - toT ≤ 0 then
        RA.erase (RA.set b.output res (RA.get b.output res - toT)) res
      else RA.set b.output res (RA.get b.output res - toT)) r
      = RA.total b.output r - (if res == r then toT else 0) := by
    by_cases hz : RA.get b.output res - toT ≤ 0
    · rw [if_pos hz, RA.total_erase, RA.total_set, RA.get_set_self]
      have hz2 : RA.get b.output res - toT = 0 := le_antisymm hz (by linarith)
      by_cases hres : res == r
      · simp only [hres, if_true, RA.get_set_self]
        rw [hz2]
        ring_nf
        simp [hz2]
        linarith
      · simp [hres]
    · rw [if_neg hz, RA.total_set]
      by_cases hres : res == r
      · simp [hres]; ring
      · simp [hres]
  simp only [bufContrib, hout]
  ring

/-- Target-side buffer update of one link transfer: increment the input. -/
theorem bufTotal_targetUpdate (bufs : List (String × SlotBuffer))
    (key res : String) (inp out : ResourceAmount) (cap toT : ℚ) (r : String)
    (hb : tableGet bufs key = some ⟨inp, out, cap⟩) :
    bufTotal (amSet bufs key ⟨RA.set inp res (RA.get inp res + toT), out, cap⟩) r
    = bufTotal bufs r + (if res == r then toT else 0) := by
  rw [bufTotal_amSet, hb]
  simp only [bufContrib, RA.total_set]
  by_cases hres : res == r
  · simp [hres]; ring
  · simp [hres]

end Geared
namespace Geared

theorem tableGet_mem {α : Type} (m : List (String × α)) (k : String) (v : α)
    (h : tableGet m k = some v) : ∃ k2 : String, (k2, v) ∈ m := by
  rw [tableGet] at h
  cases hf : m.find? (fun p => p.1 == k) with
  | none => rw [hf] at h; simp at h
  | some q =>
    rw [hf] at h
    simp only [Option.map, Option.some.injEq] at h
    refine ⟨q.1, ?_⟩
    have hm := List.mem_of_find?_eq_some hf
    rw [← h]
    simpa using hm

/-- Remaining amount of the deposit stored under key k, 0 when absent. -/
def depRem (o : Option DepositMap) (k : String) : ℚ :=
  match o with
  | some m =>
    match tableGet m k with
    | some d => d.remainingAmount
    | none => 0
  | none => 0

/-- All deposits in the optional map have nonnegative yield rates. -/
def DepositsOK (o : Option DepositMap) : Prop :=
  ∀ dm, o = some dm → ∀ p ∈ dm, 0 ≤ p.2.yieldRate

theorem extract_yieldRate (d : Deposit) (q : ℚ) :
    (d.extract q).2.yieldRate = d.yieldRate := by
  rw [Deposit.extract]
  split <;> rfl

theorem yieldMultiplierFor_nonneg (deps : Option DepositMap) (slot : MachineSlot)
    (isMining : Bool) (h : DepositsOK deps) (y : ℚ)
    (hy : Module.yieldMultiplierFor deps slot isMining = some y) : 0 ≤ y := by
  rw [Module.yieldMultiplierFor.eq_def] at hy
  repeat' split at hy
  all_goals try (exfalso; simp at hy; done)
  all_goals try (rw [Option.some.injEq] at hy; rw [← hy]; norm_num; done)
  rw [Option.some.injEq] at hy
  rw [← hy]
  rename_i depositId dmap heq1 xd dep htg hcond
  obtain ⟨k2, hmem⟩ := tableGet_mem _ _ dep htg
  exact h dmap rfl (k2, dep) hmem

/-- The deposit-map effect of producing one output entry: for mining slots,
extract the produced amount from the bound deposit. -/
def depsAfterOutput (slot : MachineSlot) (isMining : Bool) (tp : ℚ)
    (deps : Option DepositMap) : Option DepositMap :=
  if isMining then
    match slot.depositId, deps with
    | some depositId, some dmap =>
      match tableGet dmap depositId with
      | some dep => some (amSet dmap depositId (dep.extract tp).2)
      | none => deps
    | _, _ => deps
  else deps

theorem produceOutputs_cons (dt y : ℚ) (p : String × ℚ) (t : ResourceAmount)
    (isMining : Bool) (slot : MachineSlot) (out : ResourceAmount)
    (deps : Option DepositMap) :
    Module.produceOutputs dt y (p :: t) isMining slot out deps =
      Module.produceOutputs dt y t isMining slot
        (RA.set out p.1 (RA.get out p.1 + p.2 * dt * y))
        (depsAfterOutput slot isMining (p.2 * dt * y) deps) := rfl

theorem deps_step_ok (slot : MachineSlot) (isMining : Bool) (tp : ℚ)
    (deps : Option DepositMap) (hok : DepositsOK deps) :
    DepositsOK (depsAfterOutput slot isMining tp deps) := by
  by_cases hm : isMining = true
  · simp only [depsAfterOutput, hm, if_true]
    cases hslot : slot.depositId with
    | none => exact hok
    | some did =>
      cases deps with
      | none => exact hok
      | some dmap =>
        show DepositsOK
          (match tableGet dmap did with
          | some dep => some (amSet dmap did (dep.extract tp).2)
          | none => some dmap)
        cases htg : tableGet dmap did with
        | none => exact hok
        | some dep =>
          show DepositsOK (some (amSet dmap did (dep.extract tp).2))
          intro dm hdm p hp
          rw [Option.some.injEq] at hdm
          rw [← hdm] at hp
          rcases mem_amSet _ _ _ _ hp with h1 | h1
          · rw [h1]
            simp only [extract_yieldRate]
            obtain ⟨k2, hmem⟩ := tableGet_mem _ _ dep htg
            exact hok dmap rfl (k2, dep) hmem
          · exact hok dmap rfl p h1
  · simp only [depsAfterOutput, hm, if_false]
    exact hok

theorem deps_step_le (slot : MachineSlot) (isMining : Bool) (tp : ℚ)
    (deps : Option DepositMap) (htp : 0 ≤ tp) :
    ∀ k, depRem (depsAfterOutput slot isMining tp deps) k ≤ depRem deps k := by
  intro k
  by_cases hm : isMining = true
  · simp only [depsAfterOutput, hm, if_true]
    cases hslot : slot.depositId with
    | none => exact le_refl (depRem deps k)
    | some did =>
      cases deps with
      | none => exact le_refl (depRem none k)
      | some dmap =>
        show depRem
          (match tableGet dmap did with
          | some dep => some (amSet dmap did (dep.extract tp).2)
          | none => some dmap) k ≤ depRem (some dmap) k
        cases htg : tableGet dmap did with
        | none => exact le_refl (depRem (some dmap) k)
        | some dep =>
          show depRem (some (amSet dmap did (dep.extract tp).2)) k
            ≤ depRem (some dmap) k
          simp only [depRem, tableGet_amSet]
          by_cases hdk : did == k
          · rw [if_pos hdk]
            have hdk2 : did = k := by simpa using hdk
            rw [← hdk2, htg]
            exact Deposit.extract_remaining_le dep tp htp
          · rw [if_neg hdk]
  · simp only [depsAfterOutput, hm, if_false]
    exact le_refl (depRem deps k)

theorem produceOutputs_deps (dt y : ℚ) (rates : ResourceAmount) (isMining : Bool)
    (slot : MachineSlot) (out : ResourceAmount) (deps : Option DepositMap)
    (hdt : 0 ≤ dt) (hy : 0 ≤ y) (hrates : RA.AllNonneg rates)
    (hok : DepositsOK deps) :
    DepositsOK (Module.produceOutputs dt y rates isMining slot out deps).2 ∧
    ∀ k, depRem (Module.produceOutputs dt y rates isMining slot out deps).2 k
      ≤ depRem deps k := by
  induction rates generalizing out deps with
  | nil => exact ⟨hok, fun k => le_refl _⟩
  | cons p t ih =>
    have hratesT : RA.AllNonneg t := fun q hq => hrates q (List.mem_cons_of_mem _ hq)
    have hp : 0 ≤ p.2 := hrates p (List.mem_cons_self _ _)
    have htp : 0 ≤ p.2 * dt * y := mul_nonneg (mul_nonneg hp hdt) hy
    rw [produceOutputs_cons]
    have hstep1 := deps_step_ok slot isMining (p.2 * dt * y) deps hok
    have hstep2 := deps_step_le slot isMining (p.2 * dt * y) deps htp
    have hres := ih (RA.set out p.1 (RA.get out p.1 + p.2 * dt * y))
      (depsAfterOutput slot isMining (p.2 * dt * y) deps) hratesT hstep1
    exact ⟨hres.1, fun k => le_trans (hres.2 k) (hstep2 k)⟩

end Geared
namespace Geared

theorem allNonneg_scale (rates : ResourceAmount) (count : ℚ)
    (h : RA.AllNonneg rates) (hc : 0 ≤ count) :
    RA.AllNonneg (rates.map (fun p => (p.1, p.2 * count))) := by
  intro q hq
  rw [List.mem_map] at hq
  obtain ⟨p, hp, hpq⟩ := hq
  rw [← hpq]
  exact mul_nonneg (h p hp) hc

theorem produceSlot_deps (dt : ℚ) (defs : GameDefsT)
    (st : List (String × SlotBuffer) × Option DepositMap) (slot : MachineSlot)
    (hdt : 0 ≤ dt) (hcount : 0 ≤ slot.machineCount)
    (hrec : ∀ rid rec, tableGet defs.recipes rid = some rec →
      RA.AllNonneg rec.outputRates)
    (hok : DepositsOK st.2) :
    DepositsOK (Module.produceSlot dt defs st slot).2 ∧
    ∀ k, depRem (Module.produceSlot dt defs st slot).2 k ≤ depRem st.2 k := by
  rw [Module.produceSlot.eq_def]
  dsimp only
  repeat' split
  all_goals try exact ⟨hok, fun k => le_refl _⟩
  rename_i hmc x3 rid heq3 x2 recipe heq2 x1 buffer heq1 x0 y hy hcan
  have hynn : 0 ≤ y := yieldMultiplierFor_nonneg st.2 slot _ hok y hy
  have hrates : RA.AllNonneg (recipe.outputRates.map
      (fun p => (p.1, p.2 * slot.machineCount))) :=
    allNonneg_scale recipe.outputRates slot.machineCount
      (hrec rid recipe heq2) hcount
  exact produceOutputs_deps dt y _ _ slot buffer.output st.2 hdt hynn hrates hok

theorem foldl_produceSlot_deps (dt : ℚ) (defs : GameDefsT)
    (slots : List MachineSlot)
    (st : List (String × SlotBuffer) × Option DepositMap)
    (hdt : 0 ≤ dt) (hcounts : ∀ s ∈ slots, 0 ≤ s.machineCount)
    (hrec : ∀ rid rec, tableGet defs.recipes rid = some rec →
      RA.AllNonneg rec.outputRates)
    (hok : DepositsOK st.2) :
    DepositsOK (slots.foldl (Module.produceSlot dt defs) st).2 ∧
    ∀ k, depRem (slots.foldl (Module.produceSlot dt defs) st).2 k
      ≤ depRem st.2 k := by
  induction slots generalizing st with
  | nil => exact ⟨hok, fun k => le_refl _⟩
  | cons s t ih =>
    have hs := produceSlot_deps dt defs st s hdt
      (hcounts s (List.mem_cons_self _ _)) hrec hok
    rw [List.foldl_cons]
    have hrest := ih (Module.produceSlot dt defs st s)
      (fun q hq => hcounts q (List.mem_cons_of_mem _ hq)) hs.1
    exact ⟨hrest.1, fun k => le_trans (hrest.2 k) (hs.2 k)⟩

theorem updateSlotBuffers_machineSlots (m : Module)
    (machines : List (String × MachineDefinition)) :
    (m.updateSlotBuffers machines).machineSlots = m.machineSlots := rfl

/-- Deposit monotonicity across one module production tick: the remaining
amount of every deposit never increases. -/
theorem tick_deposits_monotone (m : Module) (dt : ℚ) (defs : GameDefsT)
    (deps : Option DepositMap)
    (hdt : 0 ≤ dt) (hcounts : ∀ s ∈ m.machineSlots, 0 ≤ s.machineCount)
    (hrec : ∀ rid rec, tableGet defs.recipes rid = some rec →
      RA.AllNonneg rec.outputRates)
    (hok : DepositsOK deps) :
    ∀ k, depRem ((m.tick dt defs deps).2) k ≤ depRem deps k := by
  intro k
  rw [Module.tick]
  by_cases he : ¬m.enabled = true
  · rw [if_pos he]
  · rw [if_neg he]
    by_cases hv : ¬(m.isValid (some defs.recipes)) = true
    · rw [if_pos hv]
    · rw [if_neg hv]
      simp only
      exact (foldl_produceSlot_deps dt defs
        (m.updateSlotBuffers defs.machines).machineSlots
        ((m.updateSlotBuffers defs.machines).slotBuffers, deps) hdt
        (by rw [updateSlotBuffers_machineSlots]; exact hcounts) hrec hok).2 k

end Geared
namespace Geared

theorem storage_capOrInf_remove (s : Storage) (res res2 : String) (a : ℚ) :
    (s.remove res a).2.capOrInf res2 = s.capOrInf res2 := by
  rw [Storage.capOrInf, Storage.capOrInf, Storage.remove_capacity]

theorem storage_add_fst_eq (s : Storage) (res : String) (a : ℚ) (h0 : 0 < a)
    (hsp : ∀ c, s.capOrInf res = some c → a ≤ c - RA.get s.contents res) :
    (s.add res a).1 = a := by
  rw [Storage.add, if_neg (not_le.mpr h0)]
  simp only
  cases hc : s.capOrInf res with
  | none => rfl
  | some c => simpa using min_eq_left (hsp c hc)

theorem storage_remove_fst_eq (s : Storage) (res : String) (a : ℚ) (h0 : 0 < a)
    (hle : a ≤ RA.get s.contents res) : (s.remove res a).1 = a := by
  rw [Storage.remove_fst s res a h0]
  exact min_eq_left hle

end Geared

namespace Geared

theorem transferLink_total (dt : ℚ) (bufs : List (String × SlotBuffer))
    (gs : Option Storage) (link : Link) (r : String)
    (hnd : ∀ s0, gs = some s0 → RA.KeysND s0.contents) :
    stTotal (Module.transferLink dt (bufs, gs) link) r = stTotal (bufs, gs) r := by
  cases gs with
  | none =>
    rw [Module.transferLink]
    simp only [Option.isSome_none, Bool.and_false, Option.map_none]
    cases hsrc : tableGet bufs link.fromId with
    | none => simp [hsrc]
    | some b =>
      cases htgt : tableGet bufs link.toId with
      | none => simp [hsrc, htgt]
      | some b2 =>
        by_cases hguard :
            min (min (RA.get b.output link.resource)
              (link.pipeDefinition.throughput * dt))
              (b2.capacity - RA.get b2.input link.resource) ≤ 0
        · simp [hsrc, htgt, hguard]
        · simp only [hsrc, htgt, Bool.false_eq_true, if_false, if_neg hguard]
          set toT := RA.get b.output link.resource ⊓ link.pipeDefinition.throughput * dt ⊓
            (b2.capacity - RA.get b2.input link.resource) with htoT
          have hpos : 0 < toT := not_le.mp hguard
          have hle_src : toT ≤ RA.get b.output link.resource :=
            le_trans (min_le_left _ _) (min_le_left _ _)
          have hS1 := bufTotal_sourceUpdate bufs link.fromId link.resource b toT r hsrc hle_src
          rw [tableGet_amSet]
          by_cases hft : link.fromId == link.toId
          · simp only [hft, if_true]
            rw [stTotal, stTotal]
            simp only [optTotal]
            rw [bufTotal_targetUpdate _ _ _ _ _ _ toT r (by rw [tableGet_amSet, if_pos hft])]
            rw [hS1]
            ring
          · simp only [hft, Bool.false_eq_true, if_false, htgt]
            rw [stTotal, stTotal]
            simp only [optTotal]
            rw [bufTotal_targetUpdate _ _ _ _ _ _ toT r
              (by rw [tableGet_amSet, if_neg (by simpa using hft)]; exact htgt)]
            rw [hS1]
            ring
  | some s =>
    have hnds : RA.KeysND s.contents := hnd s rfl
    rw [Module.transferLink]
    simp only [Option.isSome_some, Bool.and_true, Option.map]
    by_cases hf : link.fromId == "global_storage"
    · by_cases ht : link.toId == "global_storage"
      · -- global storage to global storage
        simp only [hf, ht, if_true]
        cases hfs : s.getFreeSpace link.resource with
        | none =>
          simp only [hfs]
          by_cases hguard :
              s.get link.resource ⊓ link.pipeDefinition.throughput * dt ≤ 0
          · rw [if_pos hguard]
          · rw [if_neg hguard]
            set toT := s.get link.resource ⊓ link.pipeDefinition.throughput * dt
              with htoT
            have hpos : 0 < toT := not_le.mp hguard
            have hle_src : toT ≤ RA.get s.contents link.resource := by
              rw [htoT]
              exact min_le_left _ _
            have hrm1 : (s.remove link.resource toT).1 = toT :=
              storage_remove_fst_eq s _ toT hpos hle_src
            have hadd1 : ((s.remove link.resource toT).2.add link.resource toT).1
                = toT := by
              apply storage_add_fst_eq _ _ _ hpos
              intro c hc
              rw [storage_capOrInf_remove] at hc
              rw [Storage.getFreeSpace, hc] at hfs
              simp at hfs
            rw [stTotal, stTotal]
            simp only [optTotal]
            rw [Storage.add_total, Storage.remove_total, hrm1, hadd1]
            ring
        | some space =>
          simp only [hfs]
          by_cases hguard :
              s.get link.resource ⊓ link.pipeDefinition.throughput * dt ⊓ space ≤ 0
          · rw [if_pos hguard]
          · rw [if_neg hguard]
            set toT :=
              s.get link.resource ⊓ link.pipeDefinition.throughput * dt ⊓ space
              with htoT
            have hpos : 0 < toT := not_le.mp hguard
            have hle_src : toT ≤ RA.get s.contents link.resource := by
              rw [htoT]
              exact le_trans (min_le_left _ _) (min_le_left _ _)
            have hle_sp : toT ≤ space := min_le_right _ _
            have hrm1 : (s.remove link.resource toT).1 = toT :=
              storage_remove_fst_eq s _ toT hpos hle_src
            have hcur : RA.get (s.remove link.resource toT).2.contents link.resource
                = RA.get s.contents link.resource - toT :=
              Storage.remove_get_self s _ toT hpos hle_src hnds
            have hadd1 : ((s.remove link.resource toT).2.add link.resource toT).1
                = toT := by
              apply storage_add_fst_eq _ _ _ hpos
              intro c hc
              rw [storage_capOrInf_remove] at hc
              rw [Storage.getFreeSpace, hc] at hfs
              have hsp : c - RA.get s.contents link.resource = space := by
                simpa using hfs
              rw [hcur]
              have h2 : toT ≤ c - RA.get s.contents link.resource := by
                rw [hsp]; exact hle_sp
              linarith
            rw [stTotal, stTotal]
            simp only [optTotal]
            rw [Storage.add_total, Storage.remove_total, hrm1, hadd1]
            ring
      · -- global storage to a slot buffer
        simp only [hf, ht, Bool.false_eq_true, if_false, if_true]
        cases htgt : tableGet bufs link.toId with
        | none => simp [htgt]
        | some b2 =>
          simp only [htgt]
          by_cases hguard :
              s.get link.resource ⊓ link.pipeDefinition.throughput * dt ⊓
                (b2.capacity - RA.get b2.input link.resource) ≤ 0
          · rw [if_pos hguard]
          · rw [if_neg hguard]
            set toT := s.get link.resource ⊓ link.pipeDefinition.throughput * dt ⊓
              (b2.capacity - RA.get b2.input link.resource) with htoT
            have hpos : 0 < toT := not_le.mp hguard
            have hle_src : toT ≤ RA.get s.contents link.resource := by
              rw [htoT]
              exact le_trans (min_le_left _ _) (min_le_left _ _)
            have hrm1 : (s.remove link.resource toT).1 = toT :=
              storage_remove_fst_eq s _ toT hpos hle_src
            rw [stTotal, stTotal]
            simp only [optTotal]
            rw [bufTotal_targetUpdate _ _ _ _ _ _ toT r htgt]
            rw [Storage.remove_total, hrm1]
            ring
    · by_cases ht : link.toId == "global_storage"
      · -- a slot buffer to global storage
        simp only [hf, ht, Bool.false_eq_true, if_false, if_true]
        cases hsrc : tableGet bufs link.fromId with
        | none => simp [hsrc]
        | some b =>
          simp only [hsrc]
          cases hfs : s.getFreeSpace link.resource with
          | none =>
            simp only [hfs]
            by_cases hguard :
                RA.get b.output link.resource ⊓
                  link.pipeDefinition.throughput * dt ≤ 0
            · rw [if_pos hguard]
            · rw [if_neg hguard]
              set toT := RA.get b.output link.resource ⊓
                link.pipeDefinition.throughput * dt with htoT
              have hpos : 0 < toT := not_le.mp hguard
              have hle_src : toT ≤ RA.get b.output link.resource := min_le_left _ _
              have hadd1 : (s.add link.resource toT).1 = toT := by
                apply storage_add_fst_eq _ _ _ hpos
                intro c hc
                rw [Storage.getFreeSpace, hc] at hfs
                simp at hfs
              rw [stTotal, stTotal]
              simp only [optTotal]
              rw [Storage.add_total, hadd1]
              rw [bufTotal_sourceUpdate bufs link.fromId link.resource b toT r hsrc
                hle_src]
              ring
          | some space =>
            simp only [hfs]
            by_cases hguard :
                RA.get b.output link.resource ⊓
                  link.pipeDefinition.throughput * dt ⊓ space ≤ 0
            · rw [if_pos hguard]
            · rw [if_neg hguard]
              set toT := RA.get b.output link.resource ⊓
                link.pipeDefinition.throughput * dt ⊓ space with htoT
              have hpos : 0 < toT := not_le.mp hguard
              have hle_src : toT ≤ RA.get b.output link.resource :=
                le_trans (min_le_left _ _) (min_le_left _ _)
              have hle_sp : toT ≤ space := min_le_right _ _
              have hadd1 : (s.add link.resource toT).1 = toT := by
                apply storage_add_fst_eq _ _ _ hpos
                intro c hc
                rw [Storage.getFreeSpace, hc] at hfs
                have hsp : c - RA.get s.contents link.resource = space := by
                  simpa using hfs
                rw [← hsp] at hle_sp
                exact hle_sp
              rw [stTotal, stTotal]
              simp only [optTotal]
              rw [Storage.add_total, hadd1]
              rw [bufTotal_sourceUpdate bufs link.fromId link.resource b toT r hsrc
                hle_src]
              ring
      · -- a slot buffer to a slot buffer, with the storage along for the ride
        simp only [hf, ht, Bool.false_eq_true, if_false]
        cases hsrc : tableGet bufs link.fromId with
        | none => simp [hsrc]
        | some b =>
          cases htgt : tableGet bufs link.toId with
          | none => simp [hsrc, htgt]
          | some b2 =>
            simp only [hsrc, htgt]
            by_cases hguard :
                RA.get b.output link.resource ⊓ link.pipeDefinition.throughput * dt ⊓
                  (b2.capacity - RA.get b2.input link.resource) ≤ 0
            · rw [if_pos hguard]
            · rw [if_neg hguard]
              set toT := RA.get b.output link.resource ⊓
                link.pipeDefinition.throughput * dt ⊓
                (b2.capacity - RA.get b2.input link.resource) with htoT
              have hpos : 0 < toT := not_le.mp hguard
              have hle_src : toT ≤ RA.get b.output link.resource :=
                le_trans (min_le_left _ _) (min_le_left _ _)
              have hS1 := bufTotal_sourceUpdate bufs link.fromId link.resource b toT
                r hsrc hle_src
              rw [tableGet_amSet]
              by_cases hft : link.fromId == link.toId
              · simp only [hft, if_true]
                rw [stTotal, stTotal]
                simp only [optTotal]
                rw [bufTotal_targetUpdate _ _ _ _ _ _ toT r
                  (by rw [tableGet_amSet, if_pos hft])]
                rw [hS1]
                ring
              · simp only [hft, Bool.false_eq_true, if_false, htgt]
                rw [stTotal, stTotal]
                simp only [optTotal]
                rw [bufTotal_targetUpdate _ _ _ _ _ _ toT r
                  (by rw [tableGet_amSet, if_neg (by simpa using hft)]; exact htgt)]
                rw [hS1]
                ring

end Geared

namespace Geared

/-- The JavaScript object invariant for the optional global storage: its
contents never hold two entries with the same key. -/
def StorageOK (gs : Option Storage) : Prop :=
  ∀ s0, gs = some s0 → RA.KeysND s0.contents

theorem storageOK_map_remove (gs : Option Storage) (res : String) (a : ℚ)
    (h : StorageOK gs) :
    StorageOK (gs.map (fun s => (s.remove res a).2)) := by
  intro s1 hs1
  cases gs with
  | none => simp at hs1
  | some s =>
    simp only [Option.map, Option.some.injEq] at hs1
    rw [← hs1]
    exact Storage.remove_keysND s res a (h s rfl)

theorem storageOK_map_add (gs : Option Storage) (res : String) (a : ℚ)
    (h : StorageOK gs) :
    StorageOK (gs.map (fun s => (s.add res a).2)) := by
  intro s1 hs1
  cases gs with
  | none => simp at hs1
  | some s =>
    simp only [Option.map, Option.some.injEq] at hs1
    rw [← hs1]
    exact Storage.add_keysND s res a (h s rfl)

theorem transferLink_storageOK (dt : ℚ)
    (st : List (String × SlotBuffer) × Option Storage) (link : Link)
    (h : StorageOK st.2) : StorageOK (Module.transferLink dt st link).2 := by
  obtain ⟨bufs, gs⟩ := st
  intro s1 hs1
  simp only [Module.transferLink] at hs1
  repeat' split at hs1
  all_goals
    first
    | exact h s1 hs1
    | exact storageOK_map_add _ _ _ h s1 hs1
    | exact storageOK_map_remove _ _ _ h s1 hs1
    | exact storageOK_map_add _ _ _ (storageOK_map_remove _ _ _ h) s1 hs1

theorem foldl_transferLink_total (dt : ℚ) (links : List Link)
    (st : List (String × SlotBuffer) × Option Storage) (r : String)
    (h : StorageOK st.2) :
    stTotal (links.foldl (Module.transferLink dt) st) r = stTotal st r := by
  induction links generalizing st with
  | nil => rfl
  | cons l t ih =>
    rw [List.foldl_cons]
    rw [ih (Module.transferLink dt st l) (transferLink_storageOK dt st l h)]
    obtain ⟨bufs, gs⟩ := st
    exact transferLink_total dt bufs gs l r h

/-- Conservation across a whole transfer pass of one module: the total of
every resource over slot buffers plus global storage is unchanged. -/
theorem runTransfers_total (m : Module) (dt : ℚ) (gs : Option Storage)
    (r : String) (h : StorageOK gs) :
    stTotal ((m.runTransfers dt gs).1.slotBuffers, (m.runTransfers dt gs).2) r
      = stTotal (m.slotBuffers, gs) r := by
  rw [Module.runTransfers]
  exact foldl_transferLink_total dt m.links (m.slotBuffers, gs) r h

end Geared
namespace Geared

theorem stdDefs_outputRates_nonneg :
    ∀ rid rec, tableGet StdDefs.recipes rid = some rec →
      RA.AllNonneg rec.outputRates := by
  intro rid rec h
  obtain ⟨k2, hmem⟩ := tableGet_mem _ _ rec h
  simp only [StdDefs, Recipes, List.mem_cons, List.not_mem_nil, or_false,
    Prod.mk.injEq] at hmem
  rcases hmem with ⟨h1, h2⟩ | ⟨h1, h2⟩ | ⟨h1, h2⟩ | ⟨h1, h2⟩ | ⟨h1, h2⟩ |
    ⟨h1, h2⟩ | ⟨h1, h2⟩ <;>
    (subst h2; intro p hp; dsimp only at hp; simp only [List.mem_singleton] at hp; subst hp; norm_num)

/-- The overdraft scenario: five miners on one slot bound to a deposit that
has only 3 units left. -/
def C4Module : Module :=
  { Module.mk0 "m" "Overdraft" with
    machineSlots :=
      [ { slotId := "miners", machineType := "miner", recipe := some "mine_iron",
          machineCount := 5, depositId := some "dep" } ]
    links :=
      [ { id := "l1", fromId := "miners", toId := "global_storage",
          resource := "iron_ore",
          pipeDefinition := { id := "basic_pipe", throughput := 5, tier := 1 } } ] }

/-- The overdraft deposit map: 3 units left of a 10-unit iron deposit. -/
def C4Deps : DepositMap :=
  [("dep", { Deposit.mk0 "dep" "iron_ore" 10 1 with remainingAmount := 3 })]

/-- Counterexample to claim C4 as stated: one production tick of the
overdraft module creates 5 iron_ore in the slot buffers while only 3 units
are extracted from the deposit, so the per-resource change in held totals
exceeds the amount actually extracted. -/
theorem conservation_counterexample :
    bufTotal ((C4Module.tick 1 StdDefs (some C4Deps)).1.slotBuffers) "iron_ore"
      - bufTotal C4Module.slotBuffers "iron_ore" = 5 ∧
    depRem (some C4Deps) "dep"
      - depRem ((C4Module.tick 1 StdDefs (some C4Deps)).2) "dep" = 3 ∧
    ¬((5 : ℚ) ≤ 3) := by
  refine ⟨?_, ?_, by norm_num⟩ <;>
  · simp [Module.tick, Module.isValid, Module.validateLinks, Module.slotIssues,
      Module.linkIssues, Module.getSlotInputs, Module.getSlotOutputs,
      Module.validId, Module.updateSlotBuffers, Module.updateSlotBuffersStep,
      Module.produceSlot, Module.yieldMultiplierFor, Module.consumeInputs,
      Module.produceOutputs, C4Module, C4Deps, Module.mk0, StdDefs, Recipes,
      MachineDefs, tableGet, amSet, RA.get, RA.set, RA.erase, Deposit.mk0,
      Deposit.isDepleted, Deposit.extract, List.find?, bufTotal, bufContrib,
      RA.total, depRem, List.filter]
    try norm_num

/-- Claim C4 (amended): every link transfer conserves the per-resource total
across slot buffers plus global storage exactly (given the JavaScript
unique-key invariant on the storage contents), hence a whole runTransfers
pass conserves it too; during the production phase deposits are only ever
drained, never refilled — but mining may create more output than is
actually extracted when the deposit's remainder falls short of the
production (see the counterexample), so the claimed bound fails. -/
theorem module_conservation :
    (∀ (dt : ℚ) (bufs : List (String × SlotBuffer)) (gs : Option Storage)
        (link : Link) (r : String), StorageOK gs →
      stTotal (Module.transferLink dt (bufs, gs) link) r = stTotal (bufs, gs) r) ∧
    (∀ (m : Module) (dt : ℚ) (gs : Option Storage) (r : String), StorageOK gs →
      stTotal ((m.runTransfers dt gs).1.slotBuffers, (m.runTransfers dt gs).2) r
        = stTotal (m.slotBuffers, gs) r) ∧
    (∀ (m : Module) (dt : ℚ) (deps : Option DepositMap) (k : String),
      0 ≤ dt → (∀ s ∈ m.machineSlots, 0 ≤ s.machineCount) → DepositsOK deps →
      depRem ((m.tick dt StdDefs deps).2) k ≤ depRem deps k) := by
  refine ⟨?_, ?_, ?_⟩
  · intro dt bufs gs link r h
    exact transferLink_total dt bufs gs link r h
  · intro m dt gs r h
    exact runTransfers_total m dt gs r h
  · intro m dt deps k hdt hcounts hok
    exact tick_deposits_monotone m dt StdDefs deps hdt hcounts
      stdDefs_outputRates_nonneg hok k

/-- Witness for module_conservation: a transfer pass of the overdraft module
over an empty global storage conserves the iron_ore total, and one
production tick never refills the deposit. -/
theorem module_conservation_witness :
    stTotal ((C4Module.runTransfers 1 (some ⟨[], []⟩)).1.slotBuffers,
        (C4Module.runTransfers 1 (some ⟨[], []⟩)).2) "iron_ore"
      = stTotal (C4Module.slotBuffers, some ⟨[], []⟩) "iron_ore" ∧
    depRem ((C4Module.tick 1 StdDefs (some C4Deps)).2) "dep"
      ≤ depRem (some C4Deps) "dep" := by
  constructor
  · exact module_conservation.2.1 C4Module 1 (some ⟨[], []⟩) "iron_ore"
      (by intro s0 hs0; rw [Option.some.injEq] at hs0; rw [← hs0]; simp [RA.KeysND])
  · exact module_conservation.2.2 C4Module 1 (some C4Deps) "dep" (by norm_num)
      (by intro s hs; simp only [C4Module, Module.mk0, List.mem_singleton] at hs; subst hs; norm_num)
      (by intro dm hdm p hp; rw [Option.some.injEq] at hdm; rw [← hdm] at hp;
          simp only [C4Deps, List.mem_singleton] at hp; subst hp; norm_num [Deposit.mk0])

end Geared
namespace RA

theorem erase_set (m : ResourceAmount) (r : String) (v : ℚ) :
    erase (set m r v) r = erase m r := by
  induction m with
  | nil => simp [set, erase]
  | cons p t ih =>
    obtain ⟨a, b⟩ := p
    by_cases h : a == r
    · rw [set_cons, if_pos h, erase_cons, if_pos (by simp), erase_cons, if_pos h]
    · rw [set_cons, if_neg h, erase_cons, if_neg h, erase_cons, if_neg h, ih]

end RA

namespace Storage

theorem add_capacity (s : Storage) (res : String) (a : ℚ) :
    (s.add res a).2.capacity = s.capacity := by
  rw [Storage.add]
  split <;> rfl

theorem capOrInf_mem (s : Storage) (res : String) (c : ℚ)
    (h : s.capOrInf res = some c) : c ≠ 0 ∧ ∃ k, (k, c) ∈ s.capacity := by
  rw [Storage.capOrInf] at h
  cases hf : s.capacity.find? (fun p => p.1 == res) with
  | none => rw [hf] at h; simp at h
  | some q =>
    rw [hf] at h
    dsimp only at h
    by_cases hz : q.2 = 0
    · rw [if_pos hz] at h; simp at h
    · rw [if_neg hz] at h
      rw [Option.some.injEq] at h
      subst h
      refine ⟨hz, q.1, ?_⟩
      have := List.mem_of_find?_eq_some hf
      simpa using this

theorem add_allPos (s : Storage) (res : String) (a : ℚ)
    (hcap : RA.AllNonneg s.capacity) (hc : RA.AllPos s.contents) :
    RA.AllPos (s.add res a).2.contents := by
  rw [Storage.add]
  by_cases ha : a ≤ 0
  · rw [if_pos ha]; exact hc
  · rw [if_neg ha]
    simp only
    have hcur : 0 ≤ RA.get s.contents res := RA.get_pos_of_allPos _ _ hc
    have ha' : 0 < a := not_le.mp ha
    cases hcap2 : Storage.capOrInf s res with
    | none =>
      apply RA.allPos_set _ _ _ hc
      linarith
    | some c =>
      obtain ⟨hz, k, hmem⟩ := capOrInf_mem s res c hcap2
      have hcpos : 0 < c := lt_of_le_of_ne (hcap (k, c) hmem) (Ne.symm hz)
      apply RA.allPos_set _ _ _ hc
      show 0 < RA.get s.contents res + min a (c - RA.get s.contents res)
      rcases le_total a (c - RA.get s.contents res) with h1 | h1
      · rw [min_eq_left h1]; linarith
      · rw [min_eq_right h1]; linarith

theorem remove_allPos (s : Storage) (res : String) (a : ℚ)
    (hc : RA.AllPos s.contents) : RA.AllPos (s.remove res a).2.contents := by
  rw [Storage.remove]
  by_cases ha : a ≤ 0
  · rw [if_pos ha]; exact hc
  · rw [if_neg ha]
    simp only
    by_cases hz : RA.get s.contents res - min a (RA.get s.contents res) ≤ 0
    · rw [if_pos hz, RA.erase_set]
      exact RA.allPos_erase _ _ hc
    · rw [if_neg hz]
      exact RA.allPos_set _ _ _ hc (not_le.mp hz)

end Storage

namespace Geared

/-- All slot buffers hold only strictly positive entries. -/
def BufsPos (bufs : List (String × SlotBuffer)) : Prop :=
  ∀ p ∈ bufs, RA.AllPos p.2.input ∧ RA.AllPos p.2.output

/-- The optional global storage holds only positive contents and nonnegative
capacities. -/
def StoragePos (gs : Option Storage) : Prop :=
  ∀ s, gs = some s → RA.AllPos s.contents ∧ RA.AllNonneg s.capacity

/-- All deposits in the optional map have strictly positive yield rates. -/
def DepositsPos (o : Option DepositMap) : Prop :=
  ∀ dm, o = some dm → ∀ p ∈ dm, 0 < p.2.yieldRate

theorem consumeInputs_allPos (dt : ℚ) (rates : ResourceAmount)
    (input : ResourceAmount) (h : RA.AllPos input) :
    RA.AllPos (Module.consumeInputs dt rates input) := by
  induction rates generalizing input with
  | nil => exact h
  | cons p t ih =>
    rw [Module.consumeInputs, List.foldl_cons]
    rw [show (t.foldl _ _ : ResourceAmount) = Module.consumeInputs dt t
      (if RA.get input p.1 - p.2 * dt ≤ 0 then
        RA.erase (RA.set input p.1 (RA.get input p.1 - p.2 * dt)) p.1
      else RA.set input p.1 (RA.get input p.1 - p.2 * dt)) from rfl]
    apply ih
    by_cases hz : RA.get input p.1 - p.2 * dt ≤ 0
    · rw [if_pos hz, RA.erase_set]
      exact RA.allPos_erase _ _ h
    · rw [if_neg hz]
      exact RA.allPos_set _ _ _ h (not_le.mp hz)

theorem produceOutputs_allPos (dt y : ℚ) (rates : ResourceAmount)
    (isMining : Bool) (slot : MachineSlot) (out : ResourceAmount)
    (deps : Option DepositMap) (hdt : 0 < dt) (hy : 0 < y)
    (hrates : RA.AllPos rates) (h : RA.AllPos out) :
    RA.AllPos (Module.produceOutputs dt y rates isMining slot out deps).1 := by
  induction rates generalizing out deps with
  | nil => exact h
  | cons p t ih =>
    rw [produceOutputs_cons]
    apply ih (RA.set out p.1 (RA.get out p.1 + p.2 * dt * y))
      (depsAfterOutput slot isMining (p.2 * dt * y) deps)
      (fun q hq => hrates q (List.mem_cons_of_mem _ hq))
    apply RA.allPos_set _ _ _ h
    have hp : 0 < p.2 := hrates p (List.mem_cons_self _ _)
    have h0 : 0 ≤ RA.get out p.1 := RA.get_pos_of_allPos _ _ h
    have h1 : 0 < p.2 * dt * y := mul_pos (mul_pos hp hdt) hy
    linarith

end Geared
namespace Geared

theorem yieldMultiplierFor_pos (deps : Option DepositMap) (slot : MachineSlot)
    (isMining : Bool) (h : DepositsPos deps) (y : ℚ)
    (hy : Module.yieldMultiplierFor deps slot isMining = some y) : 0 < y := by
  rw [Module.yieldMultiplierFor.eq_def] at hy
  repeat' split at hy
  all_goals try (exfalso; simp at hy; done)
  all_goals try (rw [Option.some.injEq] at hy; rw [← hy]; norm_num; done)
  rw [Option.some.injEq] at hy
  rw [← hy]
  rename_i depositId dmap heq1 xd dep htg hcond
  obtain ⟨k2, hmem⟩ := tableGet_mem _ _ dep htg
  exact h dmap rfl (k2, dep) hmem

theorem deps_step_pos (slot : MachineSlot) (isMining : Bool) (tp : ℚ)
    (deps : Option DepositMap) (hok : DepositsPos deps) :
    DepositsPos (depsAfterOutput slot isMining tp deps) := by
  by_cases hm : isMining = true
  · simp only [depsAfterOutput, hm, if_true]
    cases hslot : slot.depositId with
    | none => exact hok
    | some did =>
      cases deps with
      | none => exact hok
      | some dmap =>
        show DepositsPos
          (match tableGet dmap did with
          | some dep => some (amSet dmap did (dep.extract tp).2)
          | none => some dmap)
        cases htg : tableGet dmap did with
        | none => exact hok
        | some dep =>
          show DepositsPos (some (amSet dmap did (dep.extract tp).2))
          intro dm hdm p hp
          rw [Option.some.injEq] at hdm
          rw [← hdm] at hp
          rcases mem_amSet _ _ _ _ hp with h1 | h1
          · rw [h1]
            simp only [extract_yieldRate]
            obtain ⟨k2, hmem⟩ := tableGet_mem _ _ dep htg
            exact hok dmap rfl (k2, dep) hmem
          · exact hok dmap rfl p h1
  · simp only [depsAfterOutput, hm, if_false]
    exact hok

theorem produceOutputs_depsPos (dt y : ℚ) (rates : ResourceAmount)
    (isMining : Bool) (slot : MachineSlot) (out : ResourceAmount)
    (deps : Option DepositMap) (hok : DepositsPos deps) :
    DepositsPos (Module.produceOutputs dt y rates isMining slot out deps).2 := by
  induction rates generalizing out deps with
  | nil => exact hok
  | cons p t ih =>
    rw [produceOutputs_cons]
    exact ih _ _ (deps_step_pos slot isMining (p.2 * dt * y) deps hok)

theorem allPos_scale (rates : ResourceAmount) (count : ℚ)
    (h : RA.AllPos rates) (hc : 0 < count) :
    RA.AllPos (rates.map (fun p => (p.1, p.2 * count))) := by
  intro q hq
  rw [List.mem_map] at hq
  obtain ⟨p, hp, hpq⟩ := hq
  rw [← hpq]
  exact mul_pos (h p hp) hc

theorem bufsPos_srcUpdate_erase (bufs : List (String × SlotBuffer))
    (fid res : String) (v : ℚ) (b : SlotBuffer) (h : BufsPos bufs)
    (hb : tableGet bufs fid = some b) :
    BufsPos (amSet bufs fid
      { b with output := RA.erase (RA.set b.output res v) res }) := by
  intro p hp
  rcases mem_amSet _ _ _ _ hp with h1 | h1
  · obtain ⟨k2, hmem⟩ := tableGet_mem _ _ b hb
    have hb2 := h (k2, b) hmem
    rw [h1]
    refine ⟨hb2.1, ?_⟩
    rw [RA.erase_set]
    exact RA.allPos_erase _ _ hb2.2
  · exact h p h1

theorem bufsPos_srcUpdate_set (bufs : List (String × SlotBuffer))
    (fid res : String) (v : ℚ) (b : SlotBuffer) (h : BufsPos bufs)
    (hb : tableGet bufs fid = some b) (hv : ¬v ≤ 0) :
    BufsPos (amSet bufs fid { b with output := RA.set b.output res v }) := by
  intro p hp
  rcases mem_amSet _ _ _ _ hp with h1 | h1
  · obtain ⟨k2, hmem⟩ := tableGet_mem _ _ b hb
    have hb2 := h (k2, b) hmem
    rw [h1]
    exact ⟨hb2.1, RA.allPos_set _ _ _ hb2.2 (not_le.mp hv)⟩
  · exact h p h1

theorem bufsPos_tgtUpdate (bufs : List (String × SlotBuffer))
    (tid res : String) (tt : ℚ) (b : SlotBuffer) (h : BufsPos bufs)
    (hb : tableGet bufs tid = some b) (ht : ¬tt ≤ 0) :
    BufsPos (amSet bufs tid
      { b with input := RA.set b.input res (RA.get b.input res + tt) }) := by
  intro p hp
  rcases mem_amSet _ _ _ _ hp with h1 | h1
  · obtain ⟨k2, hmem⟩ := tableGet_mem _ _ b hb
    have hb2 := h (k2, b) hmem
    have h0 : 0 ≤ RA.get b.input res := RA.get_pos_of_allPos _ _ hb2.1
    rw [h1]
    refine ⟨RA.allPos_set _ _ _ hb2.1 ?_, hb2.2⟩
    have := not_le.mp ht
    linarith
  · exact h p h1

theorem produceSlot_bufsPos (dt : ℚ) (defs : GameDefsT)
    (st : List (String × SlotBuffer) × Option DepositMap) (slot : MachineSlot)
    (hdt : 0 < dt) (hcount : 0 ≤ slot.machineCount)
    (hrec : ∀ rid rec, tableGet defs.recipes rid = some rec →
      RA.AllPos rec.outputRates)
    (hb : BufsPos st.1) (hok : DepositsPos st.2) :
    BufsPos (Module.produceSlot dt defs st slot).1 ∧
    DepositsPos (Module.produceSlot dt defs st slot).2 := by
  rw [Module.produceSlot.eq_def]
  dsimp only
  repeat' split
  all_goals try exact ⟨hb, hok⟩
  rename_i hmc x3 rid heq3 x2 recipe heq2 x1 buffer heq1 x0 y hy hcan
  have hypos : 0 < y := yieldMultiplierFor_pos st.2 slot _ hok y hy
  have hcpos : 0 < slot.machineCount := lt_of_le_of_ne hcount (Ne.symm hmc)
  have hrts : RA.AllPos (recipe.outputRates.map
      (fun p => (p.1, p.2 * slot.machineCount))) :=
    allPos_scale recipe.outputRates slot.machineCount (hrec rid recipe heq2) hcpos
  obtain ⟨k2, hmem⟩ := tableGet_mem _ _ buffer heq1
  have hbuf := hb (k2, buffer) hmem
  constructor
  · intro p hp
    rcases mem_amSet _ _ _ _ hp with h1 | h1
    · rw [h1]
      exact ⟨consumeInputs_allPos dt _ buffer.input hbuf.1,
        produceOutputs_allPos dt y _ _ slot buffer.output st.2 hdt hypos hrts
          hbuf.2⟩
    · exact hb p h1
  · exact produceOutputs_depsPos dt y _ _ slot buffer.output st.2 hok

theorem foldl_produceSlot_bufsPos (dt : ℚ) (defs : GameDefsT)
    (slots : List MachineSlot)
    (st : List (String × SlotBuffer) × Option DepositMap)
    (hdt : 0 < dt) (hcounts : ∀ s ∈ slots, 0 ≤ s.machineCount)
    (hrec : ∀ rid rec, tableGet defs.recipes rid = some rec →
      RA.AllPos rec.outputRates)
    (hb : BufsPos st.1) (hok : DepositsPos st.2) :
    BufsPos (slots.foldl (Module.produceSlot dt defs) st).1 ∧
    DepositsPos (slots.foldl (Module.produceSlot dt defs) st).2 := by
  induction slots generalizing st with
  | nil => exact ⟨hb, hok⟩
  | cons s t ih =>
    rw [List.foldl_cons]
    have hs := produceSlot_bufsPos dt defs st s hdt
      (hcounts s (List.mem_cons_self _ _)) hrec hb hok
    exact ih (Module.produceSlot dt defs st s)
      (fun q hq => hcounts q (List.mem_cons_of_mem _ hq)) hs.1 hs.2

theorem updateSlotBuffersStep_bufsPos
    (machines : List (String × MachineDefinition))
    (bufs : List (String × SlotBuffer)) (slot : MachineSlot)
    (h : BufsPos bufs) :
    BufsPos (Module.updateSlotBuffersStep machines bufs slot) := by
  rw [Module.updateSlotBuffersStep.eq_def]
  dsimp only
  repeat' split
  all_goals try exact h
  · rename_i mdef hmd bsz hbs hnz b htg
    intro p hp
    rcases mem_amSet _ _ _ _ hp with h1 | h1
    · obtain ⟨k2, hmem⟩ := tableGet_mem _ _ b htg
      have hb2 := h (k2, b) hmem
      rw [h1]
      exact ⟨hb2.1, hb2.2⟩
    · exact h p h1
  · rename_i mdef hmd bsz hbs hnz htg
    intro p hp
    rw [List.mem_append] at hp
    rcases hp with h1 | h1
    · exact h p h1
    · rw [List.mem_singleton] at h1
      rw [h1]
      exact ⟨fun q hq => absurd hq (List.not_mem_nil q),
        fun q hq => absurd hq (List.not_mem_nil q)⟩

theorem updateSlotBuffers_bufsPos (m : Module)
    (machines : List (String × MachineDefinition)) (h : BufsPos m.slotBuffers) :
    BufsPos (m.updateSlotBuffers machines).slotBuffers := by
  rw [Module.updateSlotBuffers]
  dsimp only
  intro p hp
  rw [List.mem_filter] at hp
  have hp1 := hp.1
  clear hp
  revert p
  have : ∀ bufs, BufsPos bufs →
      BufsPos (m.machineSlots.foldl
        (Module.updateSlotBuffersStep machines) bufs) := by
    intro bufs hbufs
    induction m.machineSlots generalizing bufs with
    | nil => exact hbufs
    | cons s t ih =>
      rw [List.foldl_cons]
      exact ih _ (updateSlotBuffersStep_bufsPos machines bufs s hbufs)
  intro p hp1
  exact this m.slotBuffers h p hp1

theorem module_tick_bufsPos (m : Module) (dt : ℚ) (defs : GameDefsT)
    (deposits : Option DepositMap) (hdt : 0 < dt)
    (hcounts : ∀ s ∈ m.machineSlots, 0 ≤ s.machineCount)
    (hrec : ∀ rid rec, tableGet defs.recipes rid = some rec →
      RA.AllPos rec.outputRates)
    (hb : BufsPos m.slotBuffers) (hok : DepositsPos deposits) :
    BufsPos (m.tick dt defs deposits).1.slotBuffers ∧
    DepositsPos (m.tick dt defs deposits).2 := by
  rw [Module.tick]
  by_cases he : ¬m.enabled
  · rw [if_pos he]; exact ⟨hb, hok⟩
  · rw [if_neg he]
    by_cases hv : ¬m.isValid (some defs.recipes)
    · rw [if_pos hv]; exact ⟨hb, hok⟩
    · rw [if_neg hv]
      dsimp only
      have hb2 : BufsPos (m.updateSlotBuffers defs.machines).slotBuffers :=
        updateSlotBuffers_bufsPos m defs.machines hb
      have hcounts2 : ∀ s ∈ (m.updateSlotBuffers defs.machines).machineSlots,
          0 ≤ s.machineCount := by
        rw [updateSlotBuffers_machineSlots]
        exact hcounts
      exact foldl_produceSlot_bufsPos dt defs
        (m.updateSlotBuffers defs.machines).machineSlots
        ((m.updateSlotBuffers defs.machines).slotBuffers, deposits)
        hdt hcounts2 hrec hb2 hok

end Geared
namespace Geared

theorem storagePos_map_remove (gs : Option Storage) (res : String) (a : ℚ)
    (h : StoragePos gs) :
    StoragePos (gs.map (fun s => (s.remove res a).2)) := by
  intro s1 hs1
  cases gs with
  | none => simp at hs1
  | some s =>
    simp only [Option.map, Option.some.injEq] at hs1
    rw [← hs1]
    have hs := h s rfl
    refine ⟨Storage.remove_allPos s res a hs.1, ?_⟩
    rw [Storage.remove_capacity]
    exact hs.2

theorem storagePos_map_add (gs : Option Storage) (res : String) (a : ℚ)
    (h : StoragePos gs) :
    StoragePos (gs.map (fun s => (s.add res a).2)) := by
  intro s1 hs1
  cases gs with
  | none => simp at hs1
  | some s =>
    simp only [Option.map, Option.some.injEq] at hs1
    rw [← hs1]
    have hs := h s rfl
    refine ⟨Storage.add_allPos s res a hs.2 hs.1, ?_⟩
    rw [Storage.add_capacity]
    exact hs.2

theorem transferLink_storagePos (dt : ℚ)
    (st : List (String × SlotBuffer) × Option Storage) (link : Link)
    (h : StoragePos st.2) : StoragePos (Module.transferLink dt st link).2 := by
  obtain ⟨bufs, gs⟩ := st
  intro s1 hs1
  simp only [Module.transferLink] at hs1
  repeat' split at hs1
  all_goals
    first
    | exact h s1 hs1
    | exact storagePos_map_add _ _ _ h s1 hs1
    | exact storagePos_map_remove _ _ _ h s1 hs1
    | exact storagePos_map_add _ _ _ (storagePos_map_remove _ _ _ h) s1 hs1

theorem transferLink_bufsPos (dt : ℚ)
    (st : List (String × SlotBuffer) × Option Storage) (link : Link)
    (hb : BufsPos st.1) : BufsPos (Module.transferLink dt st link).1 := by
  obtain ⟨bufs, gs⟩ := st
  simp only [Module.transferLink]
  repeat' split
  all_goals try (simp only [*, eq_self_iff_true, if_true] at *)
  all_goals
    first
    | exact hb
    | exact bufsPos_srcUpdate_erase _ _ _ _ _ hb (by assumption)
    | exact bufsPos_srcUpdate_set _ _ _ _ _ hb (by assumption) (by assumption)
    | exact bufsPos_tgtUpdate _ _ _ _ _ hb (by assumption) (by assumption)
    | exact bufsPos_tgtUpdate _ _ _ _ _
        (bufsPos_srcUpdate_erase _ _ _ _ _ hb (by assumption))
        (by assumption) (by assumption)
    | exact bufsPos_tgtUpdate _ _ _ _ _
        (bufsPos_srcUpdate_set _ _ _ _ _ hb (by assumption) (by assumption))
        (by assumption) (by assumption)

theorem foldl_transferLink_allPos (dt : ℚ) (links : List Link)
    (st : List (String × SlotBuffer) × Option Storage)
    (hb : BufsPos st.1) (hs : StoragePos st.2) :
    BufsPos (links.foldl (Module.transferLink dt) st).1 ∧
    StoragePos (links.foldl (Module.transferLink dt) st).2 := by
  induction links generalizing st with
  | nil => exact ⟨hb, hs⟩
  | cons l t ih =>
    rw [List.foldl_cons]
    exact ih (Module.transferLink dt st l)
      (transferLink_bufsPos dt st l hb) (transferLink_storagePos dt st l hs)

theorem runTransfers_allPos (m : Module) (dt : ℚ) (gs : Option Storage)
    (hb : BufsPos m.slotBuffers) (hs : StoragePos gs) :
    BufsPos (m.runTransfers dt gs).1.slotBuffers ∧
    StoragePos (m.runTransfers dt gs).2 := by
  rw [Module.runTransfers]
  exact foldl_transferLink_allPos dt m.links (m.slotBuffers, gs) hb hs

end Geared
namespace Geared

theorem stdDefs_outputRates_pos :
    ∀ rid rec, tableGet StdDefs.recipes rid = some rec →
      RA.AllPos rec.outputRates := by
  intro rid rec h
  obtain ⟨k2, hmem⟩ := tableGet_mem _ _ rec h
  simp only [StdDefs, Recipes, List.mem_cons, List.not_mem_nil, or_false,
    Prod.mk.injEq] at hmem
  rcases hmem with ⟨h1, h2⟩ | ⟨h1, h2⟩ | ⟨h1, h2⟩ | ⟨h1, h2⟩ | ⟨h1, h2⟩ |
    ⟨h1, h2⟩ | ⟨h1, h2⟩ <;>
    (subst h2; intro p hp; dsimp only at hp; simp only [List.mem_singleton] at hp; subst hp; norm_num)

/-- One miner bound to a discovered deposit whose yield rate is zero. -/
def C5Module : Module :=
  { Module.mk0 "m" "ZeroYield" with
    machineSlots :=
      [ { slotId := "miners", machineType := "miner", recipe := some "mine_iron",
          machineCount := 1, depositId := some "dep" } ]
    links :=
      [ { id := "l1", fromId := "miners", toId := "global_storage",
          resource := "iron_ore",
          pipeDefinition := { id := "basic_pipe", throughput := 5, tier := 1 } } ] }

/-- A discovered, far-from-depleted iron deposit with yieldRate 0. -/
def C5Deps : DepositMap :=
  [("dep", Deposit.mk0 "dep" "iron_ore" 10 0)]

/-- Counterexample to claim C5 as stated: one production tick of a miner
bound to a discovered deposit with yield rate 0 passes the all-or-nothing
gate and materializes the key iron_ore at exactly 0 in the slot's output
buffer, so the buffers no longer hold only positive values. -/
theorem zero_noise_counterexample :
    tableGet ((C5Module.tick 1 StdDefs (some C5Deps)).1.slotBuffers) "miners"
      = some { input := [], output := [("iron_ore", 0)], capacity := 50 } ∧
    ¬BufsPos ((C5Module.tick 1 StdDefs (some C5Deps)).1.slotBuffers) := by
  have hbufs : (C5Module.tick 1 StdDefs (some C5Deps)).1.slotBuffers
      = [("miners", { input := [], output := [("iron_ore", 0)], capacity := 50 })] := by
    simp [Module.tick, Module.isValid, Module.validateLinks, Module.slotIssues,
      Module.linkIssues, Module.getSlotInputs, Module.getSlotOutputs,
      Module.validId, Module.updateSlotBuffers, Module.updateSlotBuffersStep,
      Module.produceSlot, Module.yieldMultiplierFor, Module.consumeInputs,
      Module.produceOutputs, C5Module, C5Deps, Module.mk0, StdDefs, Recipes,
      MachineDefs, tableGet, amSet, RA.get, RA.set, RA.erase, Deposit.mk0,
      Deposit.isDepleted, Deposit.extract, List.find?, List.filter]
  constructor
  · rw [hbufs]
    simp [tableGet, List.find?]
  · intro h
    have hm := h ("miners", { input := [], output := [("iron_ore", 0)], capacity := 50 })
      (by rw [hbufs]; exact List.mem_singleton.mpr rfl)
    have := hm.2 ("iron_ore", 0) (List.mem_singleton.mpr rfl)
    norm_num at this

/-- Claim C5 (amended): the no-zero-noise invariant holds for every
operation under the expected sign side conditions.  Storage.add keeps all
contents positive whenever the capacity values are nonnegative, and
Storage.remove unconditionally deletes keys that drop to 0 or below; one
module production tick keeps every slot input/output buffer strictly
positive provided dt is positive, machine counts are nonnegative, the
recipe tables carry strictly positive output rates and every deposit has a
strictly positive yield rate (the counterexample shows the yield-rate
condition cannot be dropped); and a transfer pass keeps both the buffers
and the global storage strictly positive. -/
theorem zero_noise_invariant :
    (∀ (s : Storage) (res : String) (a : ℚ), RA.AllNonneg s.capacity →
      RA.AllPos s.contents → RA.AllPos (s.add res a).2.contents) ∧
    (∀ (s : Storage) (res : String) (a : ℚ), RA.AllPos s.contents →
      RA.AllPos (s.remove res a).2.contents) ∧
    (∀ (m : Module) (dt : ℚ) (defs : GameDefsT) (deposits : Option DepositMap),
      0 < dt → (∀ s ∈ m.machineSlots, 0 ≤ s.machineCount) →
      (∀ rid rec, tableGet defs.recipes rid = some rec →
        RA.AllPos rec.outputRates) →
      BufsPos m.slotBuffers → DepositsPos deposits →
      BufsPos (m.tick dt defs deposits).1.slotBuffers ∧
      DepositsPos (m.tick dt defs deposits).2) ∧
    (∀ (m : Module) (dt : ℚ) (gs : Option Storage),
      BufsPos m.slotBuffers → StoragePos gs →
      BufsPos (m.runTransfers dt gs).1.slotBuffers ∧
      StoragePos (m.runTransfers dt gs).2) := by
  refine ⟨?_, ?_, ?_, ?_⟩
  · intro s res a hcap hc
    exact Storage.add_allPos s res a hcap hc
  · intro s res a hc
    exact Storage.remove_allPos s res a hc
  · intro m dt defs deposits hdt hcounts hrec hb hok
    exact module_tick_bufsPos m dt defs deposits hdt hcounts hrec hb hok
  · intro m dt gs hb hs
    exact runTransfers_allPos m dt gs hb hs

/-- The miner of the C5 scenario with a unit yield rate instead: the
invariant theorem applies to it and all its hypotheses hold. -/
def C5GoodDeps : DepositMap :=
  [("dep", Deposit.mk0 "dep" "iron_ore" 10 1)]

theorem zero_noise_invariant_witness :
    RA.AllPos ((Storage.mk [("iron_ore", 5)] [("iron_ore", 10)]).add
      "iron_ore" 3).2.contents ∧
    RA.AllPos ((Storage.mk [("iron_ore", 5)] []).remove "iron_ore" 7).2.contents ∧
    BufsPos ((C5Module.tick 1 StdDefs (some C5GoodDeps)).1.slotBuffers) ∧
    BufsPos ((C5Module.runTransfers 1 none).1.slotBuffers) := by
  refine ⟨?_, ?_, ?_, ?_⟩
  · exact zero_noise_invariant.1 (Storage.mk [("iron_ore", 5)] [("iron_ore", 10)])
      "iron_ore" 3
      (by intro p hp; rw [List.mem_singleton] at hp; subst hp; norm_num)
      (by intro p hp; rw [List.mem_singleton] at hp; subst hp; norm_num)
  · exact (zero_noise_invariant.2.1 (Storage.mk [("iron_ore", 5)] [])
      "iron_ore" 7
      (by intro p hp; rw [List.mem_singleton] at hp; subst hp; norm_num))
  · exact (zero_noise_invariant.2.2.1 C5Module 1 StdDefs (some C5GoodDeps)
      (by norm_num)
      (by intro s hs; rw [show C5Module.machineSlots =
            [{ slotId := "miners", machineType := "miner",
               recipe := some "mine_iron", machineCount := 1,
               depositId := some "dep" }] from rfl, List.mem_singleton] at hs
          subst hs; norm_num)
      stdDefs_outputRates_pos
      (by intro p hp; exact absurd hp (List.not_mem_nil p))
      (by intro dm hdm p hp
          rw [Option.some.injEq] at hdm
          subst hdm
          rw [show C5GoodDeps = [("dep", Deposit.mk0 "dep" "iron_ore" 10 1)] from rfl,
            List.mem_singleton] at hp
          subst hp
          norm_num [Deposit.mk0])).1
  · exact (zero_noise_invariant.2.2.2 C5Module 1 none
      (by intro p hp; exact absurd hp (List.not_mem_nil p))
      (by intro s hs; exact absurd hs (by simp))).1

end Geared
namespace Geared

theorem tableGet_none {α : Type} (m : List (String × α)) (k : String)
    (h : ∀ q ∈ m, q.1 ≠ k) : tableGet m k = none := by
  induction m with
  | nil => rfl
  | cons p t ih =>
    rw [tableGet, List.find?]
    have hp : ¬(p.1 == k) = true := by
      simp only [beq_iff_eq]
      exact h p (List.mem_cons_self _ _)
    rw [Bool.not_eq_true] at hp
    rw [hp]
    exact ih (fun q hq => h q (List.mem_cons_of_mem _ hq))

theorem amSet_fresh {α : Type} (m : List (String × α)) (k : String) (v : α)
    (h : ∀ q ∈ m, q.1 ≠ k) : amSet m k v = m ++ [(k, v)] := by
  induction m with
  | nil => rfl
  | cons p t ih =>
    obtain ⟨a, b⟩ := p
    have ha : ¬(a == k) = true := by
      simp only [beq_iff_eq]
      exact h (a, b) (List.mem_cons_self _ _)
    rw [Bool.not_eq_true] at ha
    rw [show amSet ((a, b) :: t) k v
        = if a == k then (k, v) :: t else (a, b) :: amSet t k v from rfl,
      ha, if_neg (by simp), ih (fun q hq => h q (List.mem_cons_of_mem _ hq))]
    rfl

theorem map_congr_mem {α β : Type} (l : List α) (f g : α → β)
    (h : ∀ a ∈ l, f a = g a) : l.map f = l.map g := by
  induction l with
  | nil => rfl
  | cons a t ih =>
    rw [List.map_cons, List.map_cons, h a (List.mem_cons_self _ _),
      ih (fun b hb => h b (List.mem_cons_of_mem _ hb))]

theorem foldl_addInv_eq (invs : List (String × ℚ)) (w0 : World)
    (hnd : (invs.map Prod.fst).Nodup)
    (hfresh : ∀ p ∈ invs, ∀ q ∈ w0.machineInventory, q.1 ≠ p.1) :
    invs.foldl (fun acc p => acc.addMachinesToInventory p.1 p.2) w0
    = { w0 with machineInventory := w0.machineInventory
          ++ invs.map (fun p => (p.1, ⟨p.2, 0, p.2⟩)) } := by
  induction invs generalizing w0 with
  | nil => cases w0; simp
  | cons p t ih =>
    rw [List.foldl_cons]
    have htg : tableGet w0.machineInventory p.1 = none :=
      tableGet_none _ _ (fun q hq =>
        hfresh p (List.mem_cons_self _ _) q hq)
    have hstep : w0.addMachinesToInventory p.1 p.2
        = { w0 with machineInventory := w0.machineInventory
              ++ [(p.1, (⟨p.2, 0, p.2⟩ : InvEntry))] } := by
      rw [World.addMachinesToInventory]
      dsimp only
      rw [htg]
      dsimp only
      rw [amSet_fresh _ _ _ (fun q hq =>
        hfresh p (List.mem_cons_self _ _) q hq)]
      have he : ({ total := 0 + p.2, allocated := 0, available := 0 + p.2 - 0 } : InvEntry) = ⟨p.2, 0, p.2⟩ := by
        simp
      rw [he]
    rw [hstep]
    have hnd2 : (t.map Prod.fst).Nodup := (List.nodup_cons.mp hnd).2
    have hp1 : p.1 ∉ t.map Prod.fst := (List.nodup_cons.mp hnd).1
    have hfresh2 : ∀ p2 ∈ t, ∀ q ∈ ({ w0 with machineInventory := w0.machineInventory ++ [(p.1, (⟨p.2, 0, p.2⟩ : InvEntry))] } : World).machineInventory, q.1 ≠ p2.1 := by
      intro p2 hp2 q hq
      have hq2 : q ∈ w0.machineInventory ++ [(p.1, (⟨p.2, 0, p.2⟩ : InvEntry))] := hq
      rw [List.mem_append] at hq2
      rcases hq2 with hq2 | hq2
      · exact hfresh p2 (List.mem_cons_of_mem _ hp2) q hq2
      · rw [List.mem_singleton] at hq2
        rw [hq2]
        intro hcontra
        exact hp1 (by rw [show p.1 = p2.1 from hcontra]; exact List.mem_map_of_mem Prod.fst hp2)
    rw [ih _ hnd2 hfresh2]
    cases w0
    simp

theorem foldl_addDeposit_eq (dds : List DepositData) (w0 : World)
    (hnd : (dds.map DepositData.id).Nodup)
    (hfresh : ∀ dd ∈ dds, ∀ q ∈ w0.deposits, q.1 ≠ dd.id) :
    dds.foldl (fun acc dd =>
      { acc with deposits := amSet acc.deposits dd.id (Deposit.deserializeData dd) }) w0
    = { w0 with deposits := w0.deposits
          ++ dds.map (fun dd => (dd.id, Deposit.deserializeData dd)) } := by
  induction dds generalizing w0 with
  | nil => cases w0; simp
  | cons dd t ih =>
    rw [List.foldl_cons]
    have hstep : ({ w0 with deposits := amSet w0.deposits dd.id (Deposit.deserializeData dd) } : World) = { w0 with deposits := w0.deposits ++ [(dd.id, Deposit.deserializeData dd)] } := by
      rw [amSet_fresh _ _ _ (fun q hq =>
        hfresh dd (List.mem_cons_self _ _) q hq)]
    rw [hstep]
    have hnd2 : (t.map DepositData.id).Nodup := (List.nodup_cons.mp hnd).2
    have hdd1 : dd.id ∉ t.map DepositData.id := (List.nodup_cons.mp hnd).1
    have hfresh2 : ∀ d2 ∈ t, ∀ q ∈ ({ w0 with deposits := w0.deposits ++ [(dd.id, Deposit.deserializeData dd)] } : World).deposits, q.1 ≠ d2.id := by
      intro d2 hd2 q hq
      have hq2 : q ∈ w0.deposits ++ [(dd.id, Deposit.deserializeData dd)] := hq
      rw [List.mem_append] at hq2
      rcases hq2 with hq2 | hq2
      · exact hfresh d2 (List.mem_cons_of_mem _ hd2) q hq2
      · rw [List.mem_singleton] at hq2
        rw [hq2]
        intro hcontra
        exact hdd1 (by rw [show dd.id = d2.id from hcontra]; exact List.mem_map_of_mem DepositData.id hd2)
    rw [ih _ hnd2 hfresh2]
    cases w0
    simp

theorem foldl_addModuleData_eq (mds : List ModuleData) (w0 : World) :
    mds.foldl (fun acc md =>
      { acc with modules := acc.modules ++ [Module.deserialize md Pipes] }) w0
    = { w0 with modules := w0.modules
          ++ mds.map (fun md => Module.deserialize md Pipes) } := by
  induction mds generalizing w0 with
  | nil => cases w0; simp
  | cons md t ih =>
    rw [List.foldl_cons, ih]
    cases w0
    simp

theorem refresh_totals (w : World) :
    (w.refreshMachineInventory).machineInventory.map (fun p => (p.1, p.2.total))
    = w.machineInventory.map (fun p => (p.1, p.2.total)) := by
  rw [World.refreshMachineInventory]
  simp [List.map_map]

theorem refresh_modules (w : World) :
    (w.refreshMachineInventory).modules = w.modules := rfl

theorem refresh_globalStorage (w : World) :
    (w.refreshMachineInventory).globalStorage = w.globalStorage := rfl

theorem refresh_tickRate (w : World) :
    (w.refreshMachineInventory).tickRate = w.tickRate := rfl

theorem refresh_deposits (w : World) :
    (w.refreshMachineInventory).deposits = w.deposits := rfl

end Geared
namespace Geared

theorem pipes_id (k : String) (pd : PipeDefinition)
    (h : tableGet Pipes k = some pd) : pd.id = k := by
  rw [tableGet] at h
  cases hf : Pipes.find? (fun p => p.1 == k) with
  | none => rw [hf] at h; simp at h
  | some q =>
    rw [hf] at h
    simp only [Option.map, Option.some.injEq] at h
    have hq := List.find?_some hf
    have hq2 : q.1 = k := by simpa using hq
    have hqm := List.mem_of_find?_eq_some hf
    have hqid : q.2.id = q.1 := by
      simp only [Pipes, List.mem_cons, List.not_mem_nil, or_false] at hqm
      rcases hqm with h1 | h1 | h1 | h1 <;> (subst h1; rfl)
    rw [← h, hqid, hq2]

theorem foldl_addMachineSlot (sds : List SlotData) (acc : Module) :
    sds.foldl (fun acc s =>
      acc.addMachineSlot s.slotId s.machineType s.recipe s.machineCount
        s.depositId) acc
    = { acc with machineSlots := acc.machineSlots ++ sds.map (fun s =>
        { slotId := s.slotId, machineType := s.machineType, recipe := s.recipe,
          machineCount := s.machineCount, depositId := s.depositId }) } := by
  induction sds generalizing acc with
  | nil => cases acc; simp
  | cons s t ih =>
    rw [List.foldl_cons, ih]
    cases acc
    simp [Module.addMachineSlot]

/-- The per-link body of Module.deserialize: re-resolve the pipe definition,
dropping the link when the pipe type is unknown. -/
def restoreLink (pipes : Module.PipeTable) (l : LinkData) : Option Link :=
  (tableGet pipes l.pipeType).map (Link.deserialize l)

theorem foldl_linkRestore (pipes : Module.PipeTable) (lds : List LinkData)
    (acc : Module) :
    lds.foldl (fun acc l =>
      match tableGet pipes l.pipeType with
      | some pipeDef => { acc with links := acc.links ++ [Link.deserialize l pipeDef] }
      | none => acc) acc
    = { acc with links := acc.links ++ lds.filterMap (restoreLink pipes) } := by
  induction lds generalizing acc with
  | nil => cases acc; simp
  | cons l t ih =>
    rw [List.foldl_cons]
    cases htg : tableGet pipes l.pipeType with
    | none =>
      show t.foldl _ acc = _
      rw [ih]
      cases acc
      simp [List.filterMap_cons, restoreLink, htg]
    | some pd =>
      show t.foldl _ { acc with links := acc.links ++ [Link.deserialize l pd] } = _
      rw [ih]
      cases acc
      simp [List.filterMap_cons, restoreLink, htg]

theorem map_serialize_filterMap (pipes : Module.PipeTable) (lds : List LinkData)
    (hid : ∀ k pd, tableGet pipes k = some pd → pd.id = k)
    (hl : ∀ l ∈ lds, (tableGet pipes l.pipeType).isSome) :
    (lds.filterMap (restoreLink pipes)).map Link.serialize = lds := by
  induction lds with
  | nil => rfl
  | cons l t ih =>
    have hls := hl l (List.mem_cons_self _ _)
    cases htg : tableGet pipes l.pipeType with
    | none => rw [htg] at hls; simp at hls
    | some pd =>
      have hfa : restoreLink pipes l = some (Link.deserialize l pd) := by
        rw [restoreLink, htg]; rfl
      rw [List.filterMap_cons, hfa]
      simp only [List.map_cons]
      rw [ih (fun q hq => hl q (List.mem_cons_of_mem _ hq))]
      have hone : Link.serialize (Link.deserialize l pd) = l := by
        cases l
        simp [Link.serialize, Link.deserialize, hid _ _ htg]
      rw [hone]

theorem module_deserialize_serialize (data : ModuleData)
    (pipes : Module.PipeTable)
    (hid : ∀ k pd, tableGet pipes k = some pd → pd.id = k)
    (hl : ∀ l ∈ data.links, (tableGet pipes l.pipeType).isSome) :
    Module.serialize (Module.deserialize data pipes) = data := by
  obtain ⟨i0, n0, sds, lds, en⟩ := data
  rw [Module.deserialize]
  dsimp only
  rw [foldl_addMachineSlot, foldl_linkRestore]
  rw [Module.serialize]
  have hlinks := map_serialize_filterMap pipes lds hid hl
  have hcomp : ((fun s2 : MachineSlot =>
      ({ slotId := s2.slotId, machineType := s2.machineType,
         recipe := s2.recipe, machineCount := s2.machineCount,
         depositId := s2.depositId } : SlotData)) ∘
      (fun s3 : SlotData =>
      ({ slotId := s3.slotId, machineType := s3.machineType,
         recipe := s3.recipe, machineCount := s3.machineCount,
         depositId := s3.depositId } : MachineSlot))) = id :=
    funext (fun s => by cases s; rfl)
  simp only [Module.mk0, List.nil_append, List.map_map, hcomp, List.map_id,
    hlinks]

end Geared
namespace Geared

theorem world_deserialize_reserialize (data : WorldData)
    (htr : data.tickRate ≠ 0)
    (hl : ∀ md ∈ data.modules, ∀ l ∈ md.links,
      (tableGet Pipes l.pipeType).isSome)
    (hdep : (data.deposits.map DepositData.id).Nodup)
    (hinv : (data.machineInventory.map Prod.fst).Nodup) :
    World.serialize (World.deserialize data) = data := by
  obtain ⟨mds, gsd, dds, tr, invs⟩ := data
  rw [World.deserialize]
  rw [foldl_addInv_eq invs _ hinv (fun p hp q hq => absurd hq (List.not_mem_nil q))]
  rw [foldl_addDeposit_eq dds _ hdep (fun dd hdd q hq => absurd hq (List.not_mem_nil q))]
  rw [foldl_addModuleData_eq mds _]
  rw [World.serialize]
  simp only [World.mk0, refresh_modules, refresh_globalStorage, refresh_tickRate,
    refresh_deposits, refresh_totals]
  congr 1
  · rw [List.nil_append, List.map_map]
    rw [map_congr_mem mds _ id ?_, List.map_id]
    intro md hmd
    exact module_deserialize_serialize md Pipes pipes_id (hl md hmd)
  · rw [List.nil_append, List.map_map]
    rw [map_congr_mem dds _ id ?_, List.map_id]
    intro dd hdd
    cases dd
    rfl
  · exact if_neg htr
  · rw [List.nil_append, List.map_map]
    rw [map_congr_mem invs _ id ?_, List.map_id]
    intro p hp
    rfl

end Geared
namespace Geared

/-- A world whose single module has a link with an unknown pipe type. -/
def C3World : World :=
  { modules :=
      [ { Module.mk0 "m" "M" with
          links :=
            [ { id := "l1", fromId := "a", toId := "b", resource := "iron_ore",
                pipeDefinition :=
                  { id := "weird_pipe", throughput := 1, tier := 1 } } ] } ]
    globalStorage := { contents := [], capacity := [] }
    tickRate := 1
    machineInventory := []
    deposits := [] }

/-- Counterexample to claim C3 as stated: deserialization silently drops a
link whose pipe type is not in the pipe table, so the serialize →
deserialize → serialize chain loses the link and the round trip is not
structurally equal. -/
theorem serialization_counterexample :
    (World.serialize (World.deserialize (World.serialize C3World))).modules.map
      (fun md => md.links) = [[]] ∧
    (World.serialize C3World).modules.map (fun md => md.links)
      = [[{ id := "l1", fromId := "a", toId := "b", resource := "iron_ore",
            pipeType := "weird_pipe" }]] ∧
    World.serialize (World.deserialize (World.serialize C3World))
      ≠ World.serialize C3World := by
  have h1 : (World.serialize (World.deserialize (World.serialize C3World))).modules.map
      (fun md => md.links) = [[]] := by
    simp [World.serialize, World.deserialize, World.mk0,
      World.refreshMachineInventory, World.calculateAllocated, C3World,
      Module.serialize, Module.deserialize, Module.mk0, Module.addMachineSlot,
      Link.serialize, Link.deserialize, Storage.serialize,
      Storage.deserializeData, tableGet, List.find?, Pipes, amSet]
  have h2 : (World.serialize C3World).modules.map (fun md => md.links)
      = [[{ id := "l1", fromId := "a", toId := "b", resource := "iron_ore",
            pipeType := "weird_pipe" }]] := by
    simp [World.serialize, C3World, Module.serialize, Link.serialize,
      Module.mk0]
  refine ⟨h1, h2, fun h => ?_⟩
  rw [h, h2] at h1
  simp at h1

/-- Claim C3 (amended): the serialize → deserialize → serialize round trip
is structurally equal to the first serialization for every world whose tick
rate is nonzero (a saved 0 falls back to 1), whose links all carry a pipe
type known to the pipe table (unknown types are silently dropped on load),
and whose deposit ids and machine-inventory keys are free of duplicates
(both are rebuilt into keyed maps on load, so duplicates merge).  Derived
slot buffers are not part of the snapshot.  The counterexample shows the
unknown-pipe condition cannot be dropped. -/
theorem world_serialization_roundtrip (w : World)
    (htr : w.tickRate ≠ 0)
    (hlinks : ∀ m ∈ w.modules, ∀ l ∈ m.links,
      (tableGet Pipes l.pipeDefinition.id).isSome)
    (hdep : (w.deposits.map (fun p => p.2.id)).Nodup)
    (hinv : (w.machineInventory.map Prod.fst).Nodup) :
    World.serialize (World.deserialize (World.serialize w))
      = World.serialize w := by
  apply world_deserialize_reserialize
  · exact htr
  · intro md hmd l hl2
    have hmd2 : md ∈ w.modules.map Module.serialize := hmd
    rw [List.mem_map] at hmd2
    obtain ⟨m, hm, hmeq⟩ := hmd2
    subst hmeq
    have hl3 : l ∈ m.links.map Link.serialize := hl2
    rw [List.mem_map] at hl3
    obtain ⟨l0, hl0, hleq⟩ := hl3
    subst hleq
    exact hlinks m hm l0 hl0
  · have he : (World.serialize w).deposits.map DepositData.id
        = w.deposits.map (fun p => p.2.id) := by
      rw [World.serialize]
      dsimp only
      rw [List.map_map]
      rfl
    rw [he]
    exact hdep
  · have he : (World.serialize w).machineInventory.map Prod.fst
        = w.machineInventory.map Prod.fst := by
      rw [World.serialize]
      dsimp only
      rw [List.map_map]
      rfl
    rw [he]
    exact hinv

/-- A fully in-table world exercising every round-trip hypothesis: a mining
module with a basic-pipe link, nonempty storage, a deposit and a
machine-inventory entry. -/
def C3Good : World :=
  { modules :=
      [ { Module.mk0 "m1" "Mine" with
          machineSlots :=
            [ { slotId := "miners", machineType := "miner",
                recipe := some "mine_iron", machineCount := 2,
                depositId := some "dep" } ]
          links :=
            [ { id := "l1", fromId := "miners", toId := "global_storage",
                resource := "iron_ore",
                pipeDefinition :=
                  { id := "basic_pipe", throughput := 5, tier := 1 } } ] } ]
    globalStorage := { contents := [("iron_ore", 4)], capacity := [("iron_ore", 100)] }
    tickRate := 2
    machineInventory := [("miner", ⟨3, 2, 1⟩)]
    deposits := [("dep", Deposit.mk0 "dep" "iron_ore" 10 1)] }

theorem world_serialization_roundtrip_witness :
    World.serialize (World.deserialize (World.serialize C3Good))
      = World.serialize C3Good := by
  apply world_serialization_roundtrip
  · norm_num [C3Good]
  · intro m hm l hl
    simp only [C3Good, List.mem_singleton] at hm
    subst hm
    simp only [List.mem_singleton] at hl
    subst hl
    simp [Pipes, tableGet, List.find?]
  · simp [C3Good]
  · simp [C3Good]

end Geared
